import Mathlib

/-!
`OsdCpuEvalLimitContext::PatchMap`.

A shallow embedding of `opensubdiv/osd/cpuEvalLimitContext.h`: the constructor of
`PatchMap`, which serialises a `std::multimap<unsigned int, OsdPatchHandle>` into the two
vectors `_handles` and `_offsets`, the lookup `GetChildPatchesHandles`, and the binding of
vertex buffers in `OsdCpuEvalLimitContext`.

Conventions of the embedding.

* `unsigned int` values are natural numbers reduced modulo `2^32` wherever the source
  computes with them; `int` values are integers, and the conversions between the two are
  `toUInt` and `toInt`. The face id of a patch in the table is an index, a natural number;
  the constructor reads it into `int faceId` and converts that to the `unsigned int` key
  of the multimap.
* `_handles.reserve( npatches )` cannot succeed when the number of patches is not an `int`
  value, `npatches` being negative then; `++nfaces` on an `int nfaces` equal to `INT_MAX`
  overflows, after which `_offsets.reserve( nfaces )` cannot succeed. The constructor ends
  with a `Fault` at these steps. Otherwise the calls of `reserve` do not change the
  contents of the vectors.
* A step whose behaviour the C++ standard leaves undefined (a failed `assert`, a read or
  write outside a vector, dereferencing `begin()` of an empty multimap) ends the
  computation with a `Fault`.
* `std::vector` is a `List`, and `std::multimap` is the list of its entries in iteration
  order.
* An argument of type `OsdVertexBufferDescriptor const &` is a reference: it denotes a
  descriptor object outside the context or one of the descriptor members of the context,
  and is read when the assignment that uses it runs.
* Fields named `created`, `writes` and `nfaces` of the records below are history variables:
  they record values the source computes but does not store in the `PatchMap`.
-/

namespace OpenSubdiv

/-! ## Machine integers -/

/-- Conversion of an integer to `unsigned int`: the value modulo `2^32`. -/
def toUInt (z : Int) : Nat := (z % 4294967296).toNat

/-- Conversion of an unsigned value to `int`: the two's complement reading of its low
32 bits. -/
def toInt (n : Nat) : Int :=
  if n % 4294967296 < 2147483648 then ((n % 4294967296 : Nat) : Int)
  else ((n % 4294967296 : Nat) : Int) - 4294967296

/-! ## Data model -/

/-- Modelled from the spec: the struct `OsdPatchHandle` is declared in
`osd/evalLimitContext.h`; the spec gives it as
`{patchArrayIndex, controlVertexOffset, serialIndex}`, which the constructor fills with
`{ arrayid, j*ringsize, (unsigned int)mmap.size() }`. -/
structure OsdPatchHandle where
  patchArrayIndex : Nat
  controlVertexOffset : Nat
  serialIndex : Nat
deriving DecidableEq, Repr, Inhabited

/-- Modelled from the spec: `FarPatchTables::PatchArray` is declared in
`far/patchTables.h`; the constructor reads `GetDescriptor().GetNumControlVertices()` into
an `int`, and `GetNumPatches()` and `GetPatchIndex()` as `unsigned int`. -/
structure PatchArray where
  numControlVertices : Int
  numPatches : Nat
  patchIndex : Nat
deriving DecidableEq, Repr

/-- Modelled from the spec: an entry of `FarPatchTables::PtexCoordinateTable`, the coarse
face id of a patch, an index of the ptex faces, and its parametric bit field; the
constructor reads `faceIndex` into `int faceId`, where an index of `2^31` or more becomes
negative. -/
structure FarPtexCoord where
  faceIndex : Nat
  bitField : Nat
deriving DecidableEq, Repr

/-- Modelled from the spec: the part of `FarPatchTables` the constructor reads,
`GetPatchArrayVector()` and `GetPtexCoordinatesTable()`. -/
structure FarPatchTables where
  patchArrays : List PatchArray
  ptexTable : List FarPtexCoord
deriving DecidableEq, Repr

/-- The total number of patches: the sum of `GetNumPatches()` over the patch arrays. -/
def FarPatchTables.totalPatches (pt : FarPatchTables) : Nat :=
  (pt.patchArrays.map PatchArray.numPatches).sum

/-- The steps at which the constructor ends without a map: a step whose behaviour is
undefined, or a `reserve` that cannot succeed. -/
inductive Fault where
  | handlesReserve
  | ptexTableEmpty
  | ptexIndexOutOfRange
  | emptyMultiMap
  | orderAssertion
  | handlesIndexOutOfRange
  | nfacesOverflow
deriving DecidableEq, Repr

/-! ## `std::multimap<unsigned int, OsdPatchHandle>` -/

/-- The entries of the multimap in iteration order. -/
abbrev MultiMap := List (Nat × OsdPatchHandle)

/-- The member `insert` of `std::multimap`: the new entry goes after every entry whose key
is not greater, so equal keys keep their insertion order. -/
def MultiMap.insert : MultiMap → Nat → OsdPatchHandle → MultiMap
  | [], k, h => [(k, h)]
  | e :: rest, k, h =>
    if e.1 ≤ k then e :: MultiMap.insert rest k h else (k, h) :: e :: rest

/-! ## The constructor: filling the multimap -/

/-- State of the insertion loops: the multimap, the running maximum `nfaces`, and the
history of the patches in the order they were met: the face id of the patch in the table,
with the handle created for it. -/
structure InsertState where
  mmap : MultiMap
  nfaces : Int
  created : List (Nat × OsdPatchHandle)
deriving DecidableEq, Repr

/-- Body of the inner loop for patch `j` of array `arrayid`. -/
def insertPatch (ptx : List FarPtexCoord) (arrayid : Nat) (pa : PatchArray) (j : Nat)
    (st : InsertState) : Except Fault InsertState :=
  match ptx[(pa.patchIndex + j) % 4294967296]? with
  | none => .error .ptexIndexOutOfRange
  | some c =>
    let faceId : Int := toInt c.faceIndex
    let handle : OsdPatchHandle :=
      { patchArrayIndex := arrayid
        controlVertexOffset := toUInt ((j : Int) * pa.numControlVertices)
        serialIndex := st.mmap.length % 4294967296 }
    .ok { mmap := st.mmap.insert (toUInt faceId) handle
          nfaces := max st.nfaces faceId
          created := st.created ++ [(c.faceIndex, handle)] }

/-- The inner loop `for (unsigned int j=0; j < pa.GetNumPatches(); ++j)`; the first
argument counts the iterations left. -/
def patchLoop (ptx : List FarPtexCoord) (arrayid : Nat) (pa : PatchArray) :
    Nat → Nat → InsertState → Except Fault InsertState
  | 0, _, st => .ok st
  | n + 1, j, st =>
    match insertPatch ptx arrayid pa j st with
    | .error e => .error e
    | .ok st1 => patchLoop ptx arrayid pa n (j + 1) st1

/-- The outer loop over the patch arrays. -/
def arrayLoop (ptx : List FarPtexCoord) :
    List PatchArray → Nat → InsertState → Except Fault InsertState
  | [], _, st => .ok st
  | pa :: rest, arrayid, st =>
    match patchLoop ptx arrayid pa pa.numPatches 0 st with
    | .error e => .error e
    | .ok st1 => arrayLoop ptx rest (arrayid + 1) st1

/-! ## The constructor: serialising the multimap -/

/-- State of the serialisation loop; `writes` is the history of the indices written in
`_handles`. -/
structure SerState where
  handlesIdx : Nat
  faceId : Nat
  offsets : List Nat
  handles : List OsdPatchHandle
  writes : List Nat
deriving DecidableEq, Repr

/-- Body of the serialisation loop for one multimap entry, increment included. -/
def serializeStep (st : SerState) (e : Nat × OsdPatchHandle) : Except Fault SerState :=
  if e.1 < st.faceId then .error .orderAssertion
  else
    let st1 : SerState :=
      if e.1 ≠ st.faceId then
        { st with faceId := e.1, offsets := st.offsets ++ [st.handlesIdx] }
      else st
    if st1.handlesIdx < st1.handles.length then
      .ok { st1 with
            handles := st1.handles.set st1.handlesIdx e.2
            writes := st1.writes ++ [st1.handlesIdx]
            handlesIdx := (st1.handlesIdx + 1) % 4294967296 }
    else .error .handlesIndexOutOfRange

/-- The serialisation loop over the multimap. -/
def serialize : MultiMap → SerState → Except Fault SerState
  | [], st => .ok st
  | e :: rest, st =>
    match serializeStep st e with
    | .error err => .error err
    | .ok st1 => serialize rest st1

/-- The two vectors of `PatchMap`. -/
structure PatchMap where
  handles : List OsdPatchHandle
  offsets : List Nat
deriving DecidableEq, Repr

/-- What a run of the constructor leaves: the map, and the history variables `nfaces`
(after `++nfaces`), `created` and `writes`. -/
structure Built where
  map : PatchMap
  nfaces : Int
  created : List (Nat × OsdPatchHandle)
  writes : List Nat
deriving DecidableEq, Repr

/-- The constructor `PatchMap( FarPatchTables const & patchTables )`: the reserve of
`_handles`, the assertion on the face-id table, the insertion loops, `++nfaces` with the
reserve of `_offsets`, and the serialisation of the multimap. -/
def construct (pt : FarPatchTables) : Except Fault Built :=
  if 2147483648 ≤ pt.totalPatches then .error .handlesReserve
  else if pt.ptexTable.isEmpty then .error .ptexTableEmpty
  else
    match arrayLoop pt.ptexTable pt.patchArrays 0 { mmap := [], nfaces := 0, created := [] } with
    | .error e => .error e
    | .ok ins =>
      if 2147483647 ≤ ins.nfaces then .error .nfacesOverflow
      else
        match ins.mmap with
        | [] => .error .emptyMultiMap
        | first :: _ =>
          match serialize ins.mmap
              { handlesIdx := 0
                faceId := first.1
                offsets := [0]
                handles := List.replicate ins.mmap.length default
                writes := [] } with
          | .error e => .error e
          | .ok fin =>
            .ok { map := { handles := fin.handles, offsets := fin.offsets }
                  nfaces := ins.nfaces + 1
                  created := ins.created
                  writes := fin.writes }

/-! ## The lookup -/

/-- Outcome of `GetChildPatchesHandles`: `failure` is the return value `false`;
`success n first` is the return value `true` with `*npatches = n` and `*patches`
pointing at `_handles[first]`; `undefined` is a read outside `_offsets` or `_handles`. -/
inductive Lookup where
  | failure
  | success (npatches : Int) (first : Nat)
  | undefined
deriving DecidableEq, Repr

/-- The read `_offsets[i]` for an `int` index: a negative index converts to a `size_t`
beyond every vector. -/
def readOffset (offsets : List Nat) (i : Int) : Option Nat :=
  if i < 0 then none else offsets[i.toNat]?

/-- The member `GetChildPatchesHandles( int faceid, int * npatches, ... )`. -/
def PatchMap.GetChildPatchesHandles (pm : PatchMap) (faceid : Int) : Lookup :=
  if pm.handles.isEmpty || pm.offsets.isEmpty || decide (faceid ≥ toInt pm.offsets.length) then
    .failure
  else
    let upper : Option Nat :=
      if faceid = toInt pm.offsets.length - 1 then
        some ((pm.handles.length % 4294967296 + 4294967296 - 1) % 4294967296)
      else readOffset pm.offsets (faceid + 1)
    match upper, readOffset pm.offsets faceid with
    | some u, some off =>
      if off < pm.handles.length then
        .success (toInt ((u + 4294967296 - off % 4294967296 + 1) % 4294967296)) off
      else .undefined
    | _, _ => .undefined

/-! ## Notions used to state the properties -/

/-- The multimap entries of the patches of a history: the key is the face id read into
`int faceId` and converted to `unsigned int`, as in
`std::pair<unsigned int, OsdPatchHandle>(faceId, handle)`. -/
def keyed (l : List (Nat × OsdPatchHandle)) : MultiMap :=
  l.map (fun e => (toUInt (toInt e.1), e.2))

/-- The multimap obtained by inserting the entries of a list, in order, into an empty
multimap. -/
def MultiMap.ofList (l : List (Nat × OsdPatchHandle)) : MultiMap :=
  l.foldl (fun m e => MultiMap.insert m e.1 e.2) []

/-- The keys of the entries are in non-decreasing order. -/
def KeySorted (m : MultiMap) : Prop := m.Pairwise (fun a b => a.1 ≤ b.1)

/-- The keys of a list that differ from their predecessor, `prev` being the predecessor of
the first. -/
def distinctFrom : Nat → List Nat → List Nat
  | _, [] => []
  | prev, k :: r => if k ≠ prev then k :: distinctFrom k r else distinctFrom k r

/-- The distinct keys of a sorted key list, in order. -/
def distinctKeys : List Nat → List Nat
  | [] => []
  | k :: r => k :: distinctFrom k r

/-- Number of entries whose key is smaller than `d`. -/
def countLt (m : MultiMap) (d : Nat) : Nat := (m.filter (fun e => decide (e.1 < d))).length

/-- Number of entries whose key is `d`. -/
def countEq (m : MultiMap) (d : Nat) : Nat := (m.filter (fun e => decide (e.1 = d))).length

/-- Every patch of every array has an entry in the ptex coordinates table, at the index
the constructor reads. -/
def FarPatchTables.HasEntries (pt : FarPatchTables) : Prop :=
  ∀ pa ∈ pt.patchArrays, ∀ j, j < pa.numPatches →
    (pa.patchIndex + j) % 4294967296 < pt.ptexTable.length

/-- What the insertion loops maintain. -/
structure InsInv (ptx : List FarPtexCoord) (st : InsertState) : Prop where
  mmap_eq : st.mmap = MultiMap.ofList (keyed st.created)
  le_nfaces : ∀ e ∈ st.created, toInt e.1 ≤ st.nfaces
  nfaces_nonneg : 0 ≤ st.nfaces
  nfaces_mem : st.nfaces = 0 ∨ ∃ e ∈ st.created, toInt e.1 = st.nfaces
  serial : st.created.map (fun e => e.2.serialIndex) =
    (List.range st.created.length).map (fun i => i % 4294967296)
  from_table : ∀ e ∈ st.created, ∃ c ∈ ptx, c.faceIndex = e.1

/-- The multimap the constructor serialises, rebuilt from the history of created
pairs. -/
def Built.entries (b : Built) : MultiMap := MultiMap.ofList (keyed b.created)

/-- The face ids the constructor reads for the patches of one array, in order. -/
def arrayFaceIds (ptx : List FarPtexCoord) (pa : PatchArray) : List Nat :=
  (List.range pa.numPatches).filterMap
    (fun j => (ptx[(pa.patchIndex + j) % 4294967296]?).map FarPtexCoord.faceIndex)

/-- The face ids of the patches in encounter order: patch arrays in order, patches within
an array in order. -/
def FarPatchTables.faceIds (pt : FarPatchTables) : List Nat :=
  pt.patchArrays.flatMap (arrayFaceIds pt.ptexTable)

/-- The largest face id seen, as the constructor tracks it in `int nfaces` from 0: the
maximum of 0 and of the values `int faceId`. -/
def FarPatchTables.maxFaceId (pt : FarPatchTables) : Int :=
  (pt.faceIds.map toInt).foldl max 0

/-- The values fit their C++ types: the patch count is an `int`, as in
`(int)patchTables.GetNumPatches()`, and every `faceIndex` is a 32-bit value. -/
def FarPatchTables.InRange (pt : FarPatchTables) : Prop :=
  pt.totalPatches < 2147483648 ∧ ∀ c ∈ pt.ptexTable, c.faceIndex < 4294967296

/-- Face ids are dense: every id of the domain `0..maxFaceId` is the face id of at least
one patch. -/
def FarPatchTables.Dense (pt : FarPatchTables) : Prop :=
  ∀ F : Nat, (F : Int) ≤ pt.maxFaceId → F ∈ pt.faceIds

/-- The scenario of the specification: coarse faces 0, 1, 2, 3 with 2, 1, 3, 1 patches, in
two patch arrays. -/
def scenario : FarPatchTables :=
  { patchArrays := [⟨16, 4, 0⟩, ⟨4, 3, 4⟩]
    ptexTable := [⟨0, 0⟩, ⟨1, 0⟩, ⟨2, 0⟩, ⟨3, 0⟩, ⟨0, 0⟩, ⟨2, 0⟩, ⟨2, 0⟩] }

/-- A table with a gap in the face ids: one patch on each of the faces 0, 2 and 3. -/
def gapTable : FarPatchTables :=
  { patchArrays := [⟨16, 3, 0⟩]
    ptexTable := [⟨0, 0⟩, ⟨2, 0⟩, ⟨3, 0⟩] }

/-- A table with a face-id entry and no patch. -/
def noPatchTable : FarPatchTables :=
  { patchArrays := []
    ptexTable := [⟨0, 0⟩] }

/-- The patches the inner loop meets in array `arrayid`, `base` patches having been met
before: the face id read for patch `j`, with the handle created for it. -/
def arrayPatches (ptx : List FarPtexCoord) (arrayid : Nat) (pa : PatchArray) (base : Nat) :
    List (Nat × OsdPatchHandle) :=
  (List.range pa.numPatches).filterMap (fun j =>
    (ptx[(pa.patchIndex + j) % 4294967296]?).map (fun c =>
      (c.faceIndex,
        { patchArrayIndex := arrayid
          controlVertexOffset := toUInt ((j : Int) * pa.numControlVertices)
          serialIndex := (base + j) % 4294967296 })))

/-- The patches the insertion loops meet from array `arrayid` on, `base` patches having
been met before. -/
def patchesFrom (ptx : List FarPtexCoord) :
    List PatchArray → Nat → Nat → List (Nat × OsdPatchHandle)
  | [], _, _ => []
  | pa :: rest, arrayid, base =>
    arrayPatches ptx arrayid pa base ++ patchesFrom ptx rest (arrayid + 1) (base + pa.numPatches)

/-- The handles as the specification describes them, in encounter order: one handle per
patch `j` of patch array `a`, with the array index `a`, the control-vertex offset
`j * ringSize` and, as serial index, the number of patches in the arrays before `a`
plus `j`. -/
def FarPatchTables.specHandles (pt : FarPatchTables) : List OsdPatchHandle :=
  (List.range pt.patchArrays.length).flatMap (fun a =>
    match pt.patchArrays[a]? with
    | none => []
    | some pa => (List.range pa.numPatches).map (fun (j : Nat) =>
        { patchArrayIndex := a
          controlVertexOffset := ((j : Int) * pa.numControlVertices).toNat
          serialIndex := ((pt.patchArrays.take a).map PatchArray.numPatches).sum + j }))

/-- The control-vertex offsets fit their C++ type: every product `j*ringsize` the
constructor computes is an `unsigned int` value. -/
def FarPatchTables.CvInRange (pt : FarPatchTables) : Prop :=
  ∀ pa ∈ pt.patchArrays, ∀ j, j < pa.numPatches →
    0 ≤ (j : Int) * pa.numControlVertices ∧ (j : Int) * pa.numControlVertices < 4294967296

/-- Modelled from the spec: `OsdVertexBufferDescriptor` is declared in
`osd/vertexDescriptor.h`; the spec gives it as `{offset, length, stride}`. -/
structure OsdVertexBufferDescriptor where
  offset : Int
  length : Int
  stride : Int
deriving DecidableEq, Repr

/-- A `float *`: an address, 0 being the null pointer. -/
abbrev Pointer := Nat

/-- Modelled from the spec: a buffer object of the template parameters `VERTEX_BUFFER` and
`OUTPUT_BUFFER`, which resolves to a CPU-accessible float pointer. -/
structure CpuBuffer where
  cpuBuffer : Pointer
deriving DecidableEq, Repr

/-- The member `BindCpuBuffer()` of a buffer object. -/
def CpuBuffer.BindCpuBuffer (buf : CpuBuffer) : Pointer := buf.cpuBuffer

/-- The expression `buf ? buf->BindCpuBuffer() : 0` for a pointer `buf` to a buffer object,
`none` being the null pointer. -/
def bindOrNull (buf : Option CpuBuffer) : Pointer :=
  match buf with
  | none => 0
  | some x => x.BindCpuBuffer

/-- The data members of `OsdCpuEvalLimitContext`: the topology tables, the patch map, the
two descriptors and the four bound pointers. -/
structure OsdCpuEvalLimitContext where
  patchArrays : List PatchArray
  patches : List Nat
  patchBitFields : List Nat
  vertexValenceBuffer : List Int
  quadOffsetBuffer : List Nat
  patchMap : Option PatchMap
  inDesc : OsdVertexBufferDescriptor
  outDesc : OsdVertexBufferDescriptor
  inQ : Pointer
  outQ : Pointer
  outdQu : Pointer
  outdQv : Pointer
deriving DecidableEq, Repr

/-- An argument of type `OsdVertexBufferDescriptor const &`: a reference to a descriptor
object outside the context, or to one of the two descriptor members of the context itself,
which `GetInputDesc()` and `GetOutputDesc()` return by reference. -/
inductive DescRef where
  | object (d : OsdVertexBufferDescriptor)
  | memberIn
  | memberOut
deriving DecidableEq, Repr

/-- The descriptor a reference denotes in a state of the context. -/
def OsdCpuEvalLimitContext.deref (ctx : OsdCpuEvalLimitContext) (r : DescRef) :
    OsdVertexBufferDescriptor :=
  match r with
  | .object d => d
  | .memberIn => ctx.inDesc
  | .memberOut => ctx.outDesc

/-- The member `BindVertexBuffers( inDesc, inQ, outDesc, outQ, outdQu, outdQv )`. The two
descriptors are passed by reference and the six assignments run in the order of the
source, so that `outDesc` is read after `_inDesc` has been assigned. -/
def OsdCpuEvalLimitContext.BindVertexBuffers (ctx : OsdCpuEvalLimitContext)
    (inDesc : DescRef) (inQ : Option CpuBuffer)
    (outDesc : DescRef) (outQ outdQu outdQv : Option CpuBuffer) :
    OsdCpuEvalLimitContext :=
  let ctx1 := { ctx with inDesc := ctx.deref inDesc }
  let ctx2 := { ctx1 with inQ := bindOrNull inQ }
  let ctx3 := { ctx2 with outDesc := ctx2.deref outDesc }
  let ctx4 := { ctx3 with outQ := bindOrNull outQ }
  let ctx5 := { ctx4 with outdQu := bindOrNull outdQu }
  { ctx5 with outdQv := bindOrNull outdQv }

/-- The member `UnbindVertexBuffers()`. -/
def OsdCpuEvalLimitContext.UnbindVertexBuffers (ctx : OsdCpuEvalLimitContext) :
    OsdCpuEvalLimitContext :=
  { ctx with inQ := 0, outQ := 0, outdQu := 0, outdQv := 0 }

/-- The member `GetInputDesc()`. -/
def OsdCpuEvalLimitContext.GetInputDesc (ctx : OsdCpuEvalLimitContext) :
    OsdVertexBufferDescriptor := ctx.inDesc

/-- The member `GetOutputDesc()`. -/
def OsdCpuEvalLimitContext.GetOutputDesc (ctx : OsdCpuEvalLimitContext) :
    OsdVertexBufferDescriptor := ctx.outDesc

/-- The member `GetInputVertexData()`. -/
def OsdCpuEvalLimitContext.GetInputVertexData (ctx : OsdCpuEvalLimitContext) : Pointer :=
  ctx.inQ

/-- The member `GetOutputVertexData()`. -/
def OsdCpuEvalLimitContext.GetOutputVertexData (ctx : OsdCpuEvalLimitContext) : Pointer :=
  ctx.outQ

/-- The member `GetOutputVertexDataUDerivative()`. -/
def OsdCpuEvalLimitContext.GetOutputVertexDataUDerivative (ctx : OsdCpuEvalLimitContext) :
    Pointer := ctx.outdQu

/-- The member `GetOutputVertexDataVDerivative()`. -/
def OsdCpuEvalLimitContext.GetOutputVertexDataVDerivative (ctx : OsdCpuEvalLimitContext) :
    Pointer := ctx.outdQv

/-- The member `GetPatchArrayVector()`. -/
def OsdCpuEvalLimitContext.GetPatchArrayVector (ctx : OsdCpuEvalLimitContext) :
    List PatchArray := ctx.patchArrays

/-- The member `GetPatchBitFields()`. -/
def OsdCpuEvalLimitContext.GetPatchBitFields (ctx : OsdCpuEvalLimitContext) : List Nat :=
  ctx.patchBitFields

/-- The member `GetControlVertices()`. -/
def OsdCpuEvalLimitContext.GetControlVertices (ctx : OsdCpuEvalLimitContext) : List Nat :=
  ctx.patches

/-- The member `GetVertexValenceBuffer()`, as the buffer it points to. -/
def OsdCpuEvalLimitContext.GetVertexValenceBuffer (ctx : OsdCpuEvalLimitContext) :
    List Int := ctx.vertexValenceBuffer

/-- The member `GetQuadOffsetBuffer()`, as the buffer it points to. -/
def OsdCpuEvalLimitContext.GetQuadOffsetBuffer (ctx : OsdCpuEvalLimitContext) : List Nat :=
  ctx.quadOffsetBuffer

/-- The member `GetPatchesMap()`. -/
def OsdCpuEvalLimitContext.GetPatchesMap (ctx : OsdCpuEvalLimitContext) : Option PatchMap :=
  ctx.patchMap

/-- A table on which a control-vertex offset leaves `unsigned int`: one array of five
patches with `2^30` control vertices each, all on face 0; the product `j*ringsize` of the
last patch is `2^32`. -/
def wrapTable : FarPatchTables :=
  { patchArrays := [⟨1073741824, 5, 0⟩]
    ptexTable := [⟨0, 0⟩, ⟨0, 0⟩, ⟨0, 0⟩, ⟨0, 0⟩, ⟨0, 0⟩] }

/-- A context state used to show the effect of an aliased descriptor argument. -/
def aliasContext : OsdCpuEvalLimitContext :=
  { patchArrays := [], patches := [], patchBitFields := [], vertexValenceBuffer := []
    quadOffsetBuffer := [], patchMap := none
    inDesc := ⟨0, 3, 3⟩, outDesc := ⟨3, 5, 8⟩
    inQ := 0, outQ := 0, outdQu := 0, outdQv := 0 }

/-! ## Lemmas -/

theorem MultiMap.mem_insert (m : MultiMap) (k : Nat) (h : OsdPatchHandle)
    (x : Nat × OsdPatchHandle) : x ∈ MultiMap.insert m k h ↔ x = (k, h) ∨ x ∈ m := by
  induction m with
  | nil => simp [MultiMap.insert]
  | cons e rest ih =>
    unfold MultiMap.insert
    split
    · simp only [List.mem_cons, ih]; tauto
    · simp only [List.mem_cons]

theorem MultiMap.length_insert (m : MultiMap) (k : Nat) (h : OsdPatchHandle) :
    (MultiMap.insert m k h).length = m.length + 1 := by
  induction m with
  | nil => simp [MultiMap.insert]
  | cons e rest ih =>
    unfold MultiMap.insert
    split <;> simp [ih]

theorem MultiMap.insert_perm (m : MultiMap) (k : Nat) (h : OsdPatchHandle) :
    (MultiMap.insert m k h).Perm ((k, h) :: m) := by
  induction m with
  | nil => simp [MultiMap.insert]
  | cons e rest ih =>
    unfold MultiMap.insert
    split
    · exact (List.Perm.cons e ih).trans (List.Perm.swap _ _ _)
    · exact List.Perm.refl _

theorem MultiMap.insert_sorted (m : MultiMap) (k : Nat) (h : OsdPatchHandle)
    (hs : KeySorted m) : KeySorted (MultiMap.insert m k h) := by
  induction m with
  | nil => simp [MultiMap.insert, KeySorted]
  | cons e rest ih =>
    unfold KeySorted at hs ⊢
    rw [List.pairwise_cons] at hs
    unfold MultiMap.insert
    split
    · rename_i hle
      rw [List.pairwise_cons]
      refine ⟨?_, ih hs.2⟩
      intro x hx
      rcases (MultiMap.mem_insert rest k h x).1 hx with rfl | hx
      · exact hle
      · exact hs.1 x hx
    · rename_i hlt
      rw [List.pairwise_cons, List.pairwise_cons]
      refine ⟨?_, hs.1, hs.2⟩
      intro x hx
      rcases List.mem_cons.1 hx with rfl | hx
      · simp only; omega
      · have := hs.1 x hx
        simp only; omega

theorem MultiMap.insert_filter (m : MultiMap) (k : Nat) (h : OsdPatchHandle) (d : Nat)
    (hs : KeySorted m) :
    (MultiMap.insert m k h).filter (fun e => decide (e.1 = d)) =
      m.filter (fun e => decide (e.1 = d)) ++ (if k = d then [(k, h)] else []) := by
  induction m with
  | nil => by_cases hk : k = d <;> simp [MultiMap.insert, hk]
  | cons e rest ih =>
    unfold KeySorted at hs
    rw [List.pairwise_cons] at hs
    unfold MultiMap.insert
    split
    · rw [List.filter_cons, List.filter_cons, ih hs.2]
      split <;> simp
    · rename_i hlt
      by_cases hk : k = d
      · have hnil : (e :: rest).filter (fun e => decide (e.1 = d)) = [] := by
          rw [List.filter_eq_nil_iff]
          intro x hx
          rcases List.mem_cons.1 hx with rfl | hx
          · simp; omega
          · have := hs.1 x hx
            simp; omega
        rw [List.filter_cons, hnil]
        simp [hk]
      · rw [List.filter_cons]
        simp [hk]

theorem MultiMap.ofList_append (l : List (Nat × OsdPatchHandle)) (e : Nat × OsdPatchHandle) :
    MultiMap.ofList (l ++ [e]) = MultiMap.insert (MultiMap.ofList l) e.1 e.2 := by
  simp [MultiMap.ofList, List.foldl_append]

theorem MultiMap.ofList_sorted (l : List (Nat × OsdPatchHandle)) :
    KeySorted (MultiMap.ofList l) := by
  induction l using List.reverseRecOn with
  | nil => simp [MultiMap.ofList, KeySorted]
  | append_singleton l e ih =>
    rw [MultiMap.ofList_append]
    exact MultiMap.insert_sorted _ _ _ ih

theorem MultiMap.ofList_perm (l : List (Nat × OsdPatchHandle)) :
    (MultiMap.ofList l).Perm l := by
  induction l using List.reverseRecOn with
  | nil => simp [MultiMap.ofList]
  | append_singleton l e ih =>
    rw [MultiMap.ofList_append]
    refine (MultiMap.insert_perm _ _ _).trans ?_
    refine (List.Perm.cons _ ih).trans ?_
    exact (List.perm_append_singleton e l).symm

theorem MultiMap.ofList_length (l : List (Nat × OsdPatchHandle)) :
    (MultiMap.ofList l).length = l.length := (MultiMap.ofList_perm l).length_eq

theorem MultiMap.ofList_filter (l : List (Nat × OsdPatchHandle)) (d : Nat) :
    (MultiMap.ofList l).filter (fun e => decide (e.1 = d)) =
      l.filter (fun e => decide (e.1 = d)) := by
  induction l using List.reverseRecOn with
  | nil => simp [MultiMap.ofList]
  | append_singleton l e ih =>
    rw [MultiMap.ofList_append, MultiMap.insert_filter _ _ _ _ (MultiMap.ofList_sorted l), ih,
      List.filter_append]
    by_cases hk : e.1 = d
    · subst hk; simp
    · simp [hk]

theorem KeySorted.tail {e : Nat × OsdPatchHandle} {m : MultiMap} (hs : KeySorted (e :: m)) :
    KeySorted m := (List.pairwise_cons.1 hs).2

theorem KeySorted.head_le {e : Nat × OsdPatchHandle} {m : MultiMap} (hs : KeySorted (e :: m)) :
    ∀ x ∈ m, e.1 ≤ x.1 := (List.pairwise_cons.1 hs).1

theorem countLt_cons (e : Nat × OsdPatchHandle) (m : MultiMap) (d : Nat) :
    countLt (e :: m) d = (if e.1 < d then 1 else 0) + countLt m d := by
  unfold countLt
  rw [List.filter_cons]
  by_cases h : e.1 < d <;> simp [h, Nat.add_comm]

theorem countLt_eq_zero (m : MultiMap) (d : Nat) (h : ∀ x ∈ m, d ≤ x.1) : countLt m d = 0 := by
  unfold countLt
  rw [List.length_eq_zero, List.filter_eq_nil_iff]
  intro x hx
  have := h x hx
  simp; omega

theorem countLt_le_length (m : MultiMap) (d : Nat) : countLt m d ≤ m.length :=
  List.length_filter_le _ _

theorem mem_distinctFrom (ks : List Nat) : ∀ (prev : Nat), ks.Pairwise (· ≤ ·) →
    (∀ k ∈ ks, prev ≤ k) → ∀ d ∈ distinctFrom prev ks, prev < d ∧ d ∈ ks := by
  induction ks with
  | nil => intro prev _ _ d hd; simp [distinctFrom] at hd
  | cons k r ih =>
    intro prev hs hge d hd
    rw [List.pairwise_cons] at hs
    have hk : prev ≤ k := hge k (List.mem_cons_self _ _)
    have hrec : ∀ d ∈ distinctFrom k r, k < d ∧ d ∈ r := ih k hs.2 hs.1
    unfold distinctFrom at hd
    split at hd
    · rename_i hne
      rcases List.mem_cons.1 hd with rfl | hd
      · exact ⟨by omega, List.mem_cons_self _ _⟩
      · have := hrec d hd
        exact ⟨by omega, List.mem_cons_of_mem _ this.2⟩
    · have := hrec d hd
      exact ⟨by omega, List.mem_cons_of_mem _ this.2⟩

theorem distinctFrom_strict (ks : List Nat) : ∀ (prev : Nat), ks.Pairwise (· ≤ ·) →
    (∀ k ∈ ks, prev ≤ k) → (distinctFrom prev ks).Pairwise (· < ·) := by
  induction ks with
  | nil => intro prev _ _; simp [distinctFrom]
  | cons k r ih =>
    intro prev hs hge
    rw [List.pairwise_cons] at hs
    have hrec := ih k hs.2 hs.1
    unfold distinctFrom
    split
    · rw [List.pairwise_cons]
      exact ⟨fun d hd => (mem_distinctFrom r k hs.2 hs.1 d hd).1, hrec⟩
    · exact hrec

theorem mem_of_distinctFrom (ks : List Nat) : ∀ (prev d : Nat), d ∈ ks →
    d = prev ∨ d ∈ distinctFrom prev ks := by
  induction ks with
  | nil => intro prev d hd; simp at hd
  | cons k r ih =>
    intro prev d hd
    unfold distinctFrom
    by_cases hne : k ≠ prev
    · rw [if_pos hne]
      rcases List.mem_cons.1 hd with rfl | hd
      · exact Or.inr (List.mem_cons_self _ _)
      · rcases ih k d hd with rfl | h
        · exact Or.inr (List.mem_cons_self _ _)
        · exact Or.inr (List.mem_cons_of_mem _ h)
    · rw [if_neg hne]
      have hkp : k = prev := by omega
      rcases List.mem_cons.1 hd with rfl | hd
      · exact Or.inl hkp
      · rcases ih k d hd with rfl | h
        · exact Or.inl hkp
        · exact Or.inr h

theorem distinctKeys_strict (ks : List Nat) (hs : ks.Pairwise (· ≤ ·)) :
    (distinctKeys ks).Pairwise (· < ·) := by
  cases ks with
  | nil => simp [distinctKeys]
  | cons k r =>
    rw [List.pairwise_cons] at hs
    unfold distinctKeys
    rw [List.pairwise_cons]
    exact ⟨fun d hd => (mem_distinctFrom r k hs.2 hs.1 d hd).1, distinctFrom_strict r k hs.2 hs.1⟩

theorem mem_distinctKeys (ks : List Nat) (hs : ks.Pairwise (· ≤ ·)) (d : Nat) :
    d ∈ distinctKeys ks ↔ d ∈ ks := by
  cases ks with
  | nil => simp [distinctKeys]
  | cons k r =>
    rw [List.pairwise_cons] at hs
    unfold distinctKeys
    constructor
    · intro hd
      rcases List.mem_cons.1 hd with rfl | hd
      · exact List.mem_cons_self _ _
      · exact List.mem_cons_of_mem _ (mem_distinctFrom r k hs.2 hs.1 d hd).2
    · intro hd
      rcases List.mem_cons.1 hd with rfl | hd
      · exact List.mem_cons_self _ _
      · rcases mem_of_distinctFrom r k d hd with rfl | h
        · exact List.mem_cons_self _ _
        · exact List.mem_cons_of_mem _ h

theorem keys_sorted (m : MultiMap) (hs : KeySorted m) : (m.map Prod.fst).Pairwise (· ≤ ·) := by
  unfold KeySorted at hs
  rw [List.pairwise_map]
  exact hs

theorem serializeStep_ok (st : SerState) (e : Nat × OsdPatchHandle) (hge : st.faceId ≤ e.1)
    (hidx : st.handlesIdx < st.handles.length) (hN : st.handles.length < 4294967296) :
    serializeStep st e = .ok
      { handlesIdx := st.handlesIdx + 1
        faceId := e.1
        offsets := st.offsets ++ (if e.1 ≠ st.faceId then [st.handlesIdx] else [])
        handles := st.handles.set st.handlesIdx e.2
        writes := st.writes ++ [st.handlesIdx] } := by
  have hmod : (st.handlesIdx + 1) % 4294967296 = st.handlesIdx + 1 :=
    Nat.mod_eq_of_lt (by omega)
  unfold serializeStep
  rw [if_neg (by omega)]
  by_cases hne : e.1 = st.faceId
  · simp [hne, hidx, hmod]
  · simp [hne, hidx, hmod]

theorem set_window (hs : List OsdPatchHandle) (i : Nat) (x : OsdPatchHandle)
    (xs : List OsdPatchHandle) (hi : i < hs.length) :
    (hs.set i x).take (i + 1) ++ xs ++ (hs.set i x).drop (i + 1 + xs.length) =
      hs.take i ++ (x :: xs) ++ hs.drop (i + (xs.length + 1)) := by
  rw [List.set_eq_take_append_cons_drop, if_pos hi]
  have h1 : (hs.take i).length = i := by simp; omega
  have e1 : (List.take i hs ++ x :: List.drop (i + 1) hs).take (i + 1) = List.take i hs ++ [x] := by
    rw [List.take_append_eq_append_take, h1]
    simp [List.take_take]
  have e2 : (List.take i hs ++ x :: List.drop (i + 1) hs).drop (i + 1 + xs.length) =
      hs.drop (i + (xs.length + 1)) := by
    rw [List.drop_append_eq_append_drop, h1]
    have : List.drop (i + 1 + xs.length) (List.take i hs) = [] := by
      rw [List.drop_eq_nil_iff]; simp; omega
    rw [this]
    have h2 : i + 1 + xs.length - i = (xs.length) + 1 := by omega
    rw [h2, List.nil_append, List.drop_succ_cons, List.drop_drop]
    congr 1; omega
  rw [e1, e2]; simp

theorem distinctFrom_cons (prev k : Nat) (r : List Nat) :
    distinctFrom prev (k :: r) = if k ≠ prev then k :: distinctFrom k r else distinctFrom k r :=
  rfl

theorem serialize_spec (l : MultiMap) : ∀ (st : SerState), KeySorted l →
    (∀ e ∈ l, st.faceId ≤ e.1) → st.handlesIdx + l.length ≤ st.handles.length →
    st.handles.length < 4294967296 →
    ∃ fin, serialize l st = .ok fin ∧
      fin.handles = st.handles.take st.handlesIdx ++ l.map Prod.snd ++
        st.handles.drop (st.handlesIdx + l.length) ∧
      fin.offsets = st.offsets ++
        (distinctFrom st.faceId (l.map Prod.fst)).map (fun d => st.handlesIdx + countLt l d) ∧
      fin.writes = st.writes ++ List.range' st.handlesIdx l.length := by
  induction l with
  | nil =>
    intro st _ _ _ _
    exact ⟨st, rfl, by simp, by simp [distinctFrom], by simp⟩
  | cons e r ih =>
    intro st hs hge hlen hN
    have hlen1 : st.handlesIdx + (r.length + 1) ≤ st.handles.length := by
      simpa using hlen
    have hstep := serializeStep_ok st e (hge e (List.mem_cons_self _ _)) (by omega) hN
    obtain ⟨fin, hfin, hh, ho, hw⟩ := ih
      { handlesIdx := st.handlesIdx + 1
        faceId := e.1
        offsets := st.offsets ++ (if e.1 ≠ st.faceId then [st.handlesIdx] else [])
        handles := st.handles.set st.handlesIdx e.2
        writes := st.writes ++ [st.handlesIdx] } hs.tail
      (fun x hx => hs.head_le x hx)
      (by simp only [List.length_set]; omega)
      (by simp only [List.length_set]; exact hN)
    dsimp only at hh ho hw
    refine ⟨fin, ?_, ?_, ?_, ?_⟩
    · simp only [serialize, hstep]; exact hfin
    · rw [hh]
      simp only [List.map_cons, List.length_cons]
      have hw := set_window st.handles st.handlesIdx e.2 (r.map Prod.snd) (by omega)
      rw [List.length_map] at hw
      exact hw
    · rw [ho]
      simp only [List.map_cons, List.append_assoc]
      congr 1
      have hrest : ∀ d ∈ distinctFrom e.1 (r.map Prod.fst),
          st.handlesIdx + 1 + countLt r d = st.handlesIdx + countLt (e :: r) d := by
        intro d hd
        have := (mem_distinctFrom (r.map Prod.fst) e.1 (keys_sorted r hs.tail)
          (by intro k hk; obtain ⟨x, hx, rfl⟩ := List.mem_map.1 hk; exact hs.head_le x hx) d hd).1
        rw [countLt_cons, if_pos this]; omega
      have hmap := List.map_congr_left hrest
      rw [distinctFrom_cons]
      by_cases hne : e.1 ≠ st.faceId
      · rw [if_pos hne, if_pos hne, List.map_cons, hmap]
        have h0 : countLt (e :: r) e.1 = 0 := by
          apply countLt_eq_zero
          intro x hx
          rcases List.mem_cons.1 hx with rfl | hx
          · exact Nat.le_refl _
          · exact hs.head_le x hx
        simp [h0]
      · rw [if_neg hne, if_neg hne, hmap]; simp
    · rw [hw]
      simp [List.range'_succ]

theorem keyed_append (l : List (Nat × OsdPatchHandle)) (e : Nat × OsdPatchHandle) :
    keyed (l ++ [e]) = keyed l ++ [(toUInt (toInt e.1), e.2)] := by
  simp [keyed]

theorem keyed_length (l : List (Nat × OsdPatchHandle)) : (keyed l).length = l.length := by
  simp [keyed]

theorem insertPatch_eq (ptx : List FarPtexCoord) (arrayid : Nat) (pa : PatchArray) (j : Nat)
    (st st1 : InsertState) (h : insertPatch ptx arrayid pa j st = .ok st1) :
    ∃ c, ptx[(pa.patchIndex + j) % 4294967296]? = some c ∧
      st1 = { mmap := st.mmap.insert (toUInt (toInt c.faceIndex))
                { patchArrayIndex := arrayid
                  controlVertexOffset := toUInt ((j : Int) * pa.numControlVertices)
                  serialIndex := st.mmap.length % 4294967296 }
              nfaces := max st.nfaces (toInt c.faceIndex)
              created := st.created ++ [(c.faceIndex,
                { patchArrayIndex := arrayid
                  controlVertexOffset := toUInt ((j : Int) * pa.numControlVertices)
                  serialIndex := st.mmap.length % 4294967296 })] } := by
  unfold insertPatch at h
  split at h
  · cases h
  · rename_i c hc
    refine ⟨c, hc, ?_⟩
    simp only [Except.ok.injEq] at h
    exact h.symm

theorem insertPatch_inv (ptx : List FarPtexCoord) (arrayid : Nat) (pa : PatchArray) (j : Nat)
    (st st1 : InsertState) (h : insertPatch ptx arrayid pa j st = .ok st1)
    (hi : InsInv ptx st) : InsInv ptx st1 := by
  obtain ⟨c, hc, rfl⟩ := insertPatch_eq ptx arrayid pa j st st1 h
  have hlen : st.mmap.length = st.created.length := by
    rw [hi.mmap_eq, MultiMap.ofList_length, keyed_length]
  constructor
  · simp only [keyed_append, MultiMap.ofList_append, hi.mmap_eq]
  · intro e he
    simp only [List.mem_append, List.mem_singleton] at he
    rcases he with he | rfl
    · exact le_trans (hi.le_nfaces e he) (le_max_left _ _)
    · exact le_max_right _ _
  · exact le_trans hi.nfaces_nonneg (le_max_left _ _)
  · simp only
    rcases le_total st.nfaces (toInt c.faceIndex) with hle | hle
    · right
      refine ⟨_, List.mem_append_right _ (List.mem_singleton_self _), ?_⟩
      simp [max_eq_right hle]
    · rw [max_eq_left hle]
      rcases hi.nfaces_mem with h0 | ⟨e, he, hee⟩
      · exact Or.inl h0
      · exact Or.inr ⟨e, List.mem_append_left _ he, hee⟩
  · simp only [List.map_append, List.map_cons, List.map_nil, List.length_append,
      List.length_singleton, List.range_succ, hi.serial, hlen]
  · intro e he
    simp only [List.mem_append, List.mem_singleton] at he
    rcases he with he | rfl
    · exact hi.from_table e he
    · exact ⟨c, List.getElem?_mem hc, rfl⟩

theorem insertPatch_length (ptx : List FarPtexCoord) (arrayid : Nat) (pa : PatchArray) (j : Nat)
    (st st1 : InsertState) (h : insertPatch ptx arrayid pa j st = .ok st1) :
    st1.created.length = st.created.length + 1 := by
  obtain ⟨c, _, rfl⟩ := insertPatch_eq ptx arrayid pa j st st1 h
  simp

theorem patchLoop_inv (ptx : List FarPtexCoord) (arrayid : Nat) (pa : PatchArray) (n : Nat) :
    ∀ (j : Nat) (st st1 : InsertState), patchLoop ptx arrayid pa n j st = .ok st1 →
      InsInv ptx st → InsInv ptx st1 ∧ st1.created.length = st.created.length + n := by
  induction n with
  | zero =>
    intro j st st1 h hi
    simp only [patchLoop, Except.ok.injEq] at h
    subst h
    exact ⟨hi, rfl⟩
  | succ n ih =>
    intro j st st1 h hi
    unfold patchLoop at h
    split at h
    · cases h
    · rename_i st2 h2
      have h3 := ih (j + 1) st2 st1 h (insertPatch_inv ptx arrayid pa j st st2 h2 hi)
      refine ⟨h3.1, ?_⟩
      rw [h3.2, insertPatch_length ptx arrayid pa j st st2 h2]
      omega

theorem arrayLoop_inv (ptx : List FarPtexCoord) (arrays : List PatchArray) :
    ∀ (arrayid : Nat) (st st1 : InsertState), arrayLoop ptx arrays arrayid st = .ok st1 →
      InsInv ptx st →
      InsInv ptx st1 ∧
        st1.created.length = st.created.length + (arrays.map PatchArray.numPatches).sum := by
  induction arrays with
  | nil =>
    intro arrayid st st1 h hi
    simp only [arrayLoop, Except.ok.injEq] at h
    subst h
    exact ⟨hi, by simp⟩
  | cons pa rest ih =>
    intro arrayid st st1 h hi
    unfold arrayLoop at h
    split at h
    · cases h
    · rename_i st2 h2
      have h3 := patchLoop_inv ptx arrayid pa pa.numPatches 0 st st2 h2 hi
      have h4 := ih (arrayid + 1) st2 st1 h h3.1
      refine ⟨h4.1, ?_⟩
      rw [h4.2, h3.2]
      simp only [List.map_cons, List.sum_cons]
      omega

theorem patchLoop_ok (ptx : List FarPtexCoord) (arrayid : Nat) (pa : PatchArray) (n : Nat) :
    ∀ (j : Nat) (st : InsertState),
      (∀ i, i < n → (pa.patchIndex + (j + i)) % 4294967296 < ptx.length) →
      ∃ st1, patchLoop ptx arrayid pa n j st = .ok st1 := by
  induction n with
  | zero => intro j st _; exact ⟨st, rfl⟩
  | succ n ih =>
    intro j st hent
    have h0 := hent 0 (Nat.succ_pos n)
    rw [Nat.add_zero] at h0
    obtain ⟨c, hc⟩ : ∃ c, ptx[(pa.patchIndex + j) % 4294967296]? = some c :=
      ⟨_, List.getElem?_eq_getElem h0⟩
    unfold patchLoop insertPatch
    simp only [hc]
    apply ih
    intro i hi
    have := hent (i + 1) (by omega)
    have e : j + 1 + i = j + (i + 1) := by omega
    rw [e]; exact this

theorem arrayLoop_ok (ptx : List FarPtexCoord) (arrays : List PatchArray) :
    ∀ (arrayid : Nat) (st : InsertState),
      (∀ pa ∈ arrays, ∀ j, j < pa.numPatches →
        (pa.patchIndex + j) % 4294967296 < ptx.length) →
      ∃ st1, arrayLoop ptx arrays arrayid st = .ok st1 := by
  induction arrays with
  | nil => intro arrayid st _; exact ⟨st, rfl⟩
  | cons pa rest ih =>
    intro arrayid st hent
    obtain ⟨st2, h2⟩ := patchLoop_ok ptx arrayid pa pa.numPatches 0 st
      (by intro i hi; rw [Nat.zero_add]; exact hent pa (List.mem_cons_self _ _) i hi)
    unfold arrayLoop
    simp only [h2]
    exact ih (arrayid + 1) st2 (fun pa1 hpa1 => hent pa1 (List.mem_cons_of_mem _ hpa1))

theorem insInv_init (ptx : List FarPtexCoord) :
    InsInv ptx { mmap := [], nfaces := 0, created := [] } :=
  ⟨rfl, by simp, le_refl _, Or.inl rfl, by simp, by simp⟩

theorem construct_eq (pt : FarPatchTables) (b : Built) (h : construct pt = .ok b) :
    ∃ ins fin, pt.ptexTable ≠ [] ∧
      arrayLoop pt.ptexTable pt.patchArrays 0 { mmap := [], nfaces := 0, created := [] } =
        .ok ins ∧
      ins.nfaces < 2147483647 ∧
      ins.mmap ≠ [] ∧
      serialize ins.mmap
        { handlesIdx := 0
          faceId := (ins.mmap.map Prod.fst).headD 0
          offsets := [0]
          handles := List.replicate ins.mmap.length default
          writes := [] } = .ok fin ∧
      b = { map := { handles := fin.handles, offsets := fin.offsets }
            nfaces := ins.nfaces + 1
            created := ins.created
            writes := fin.writes } := by
  unfold construct at h
  split at h
  · cases h
  · split at h
    · cases h
    · rename_i hne
      split at h
      · cases h
      · rename_i ins hins
        split at h
        · cases h
        · rename_i hov
          split at h
          · cases h
          · rename_i first rest hmm
            split at h
            · cases h
            · rename_i fin hfin
              simp only [Except.ok.injEq] at h
              refine ⟨ins, fin, ?_, hins, by omega, ?_, ?_, h.symm⟩
              · intro hnil; rw [hnil] at hne; simp at hne
              · rw [hmm]; simp
              · rw [hmm] at hfin ⊢; exact hfin

theorem serializeStep_length (st st1 : SerState) (e : Nat × OsdPatchHandle)
    (h : serializeStep st e = .ok st1) : st1.handles.length = st.handles.length := by
  unfold serializeStep at h
  by_cases h1 : e.1 < st.faceId
  · simp [h1] at h
  · by_cases h2 : e.1 = st.faceId <;> by_cases h3 : st.handlesIdx < st.handles.length <;>
      simp [h1, h2, h3] at h <;> (rw [← h]; simp)

theorem serialize_length (l : MultiMap) : ∀ (st fin : SerState), serialize l st = .ok fin →
    fin.handles.length = st.handles.length := by
  induction l with
  | nil =>
    intro st fin h
    simp only [serialize, Except.ok.injEq] at h
    rw [← h]
  | cons e r ih =>
    intro st fin h
    unfold serialize at h
    split at h
    · cases h
    · rename_i st1 h1
      rw [ih st1 fin h, serializeStep_length st st1 e h1]

/-- What a successful run of the constructor establishes about the history variables. -/
theorem construct_created (pt : FarPatchTables) (b : Built) (h : construct pt = .ok b) :
    b.created.length = pt.totalPatches ∧ 0 < pt.totalPatches ∧ pt.ptexTable ≠ [] ∧
      (∀ e ∈ b.created, toInt e.1 < b.nfaces) ∧ 0 < b.nfaces ∧
      (b.nfaces = 1 ∨ ∃ e ∈ b.created, toInt e.1 + 1 = b.nfaces) ∧
      b.created.map (fun e => e.2.serialIndex) =
        (List.range b.created.length).map (fun i => i % 4294967296) ∧
      (∀ e ∈ b.created, ∃ c ∈ pt.ptexTable, c.faceIndex = e.1) ∧
      b.map.handles.length = pt.totalPatches := by
  obtain ⟨ins, fin, hne, hins, hov, hmm, hfin, rfl⟩ := construct_eq pt b h
  obtain ⟨hi, hlen⟩ := arrayLoop_inv _ _ _ _ _ hins (insInv_init pt.ptexTable)
  have hlen1 : ins.created.length = pt.totalPatches := by
    rw [hlen]; simp [FarPatchTables.totalPatches]
  have hmlen : ins.mmap.length = ins.created.length := by
    rw [hi.mmap_eq, MultiMap.ofList_length, keyed_length]
  have hpos : 0 < ins.mmap.length := List.length_pos.2 hmm
  refine ⟨hlen1, by omega, hne, ?_, ?_, ?_, hi.serial, hi.from_table, ?_⟩
  · intro e he
    have := hi.le_nfaces e he
    simp only; omega
  · have := hi.nfaces_nonneg
    simp only; omega
  · rcases hi.nfaces_mem with h0 | ⟨e, he, hee⟩
    · left; simp only [h0]; rfl
    · right; exact ⟨e, he, by simp only [hee]⟩
  · have := serialize_length _ _ _ hfin
    simp only [List.length_replicate] at this
    simp only [this]; omega

/-- What a successful run of the constructor leaves in the vectors, when the patch count is
below `2^32`. -/
theorem construct_serialized (pt : FarPatchTables) (b : Built) (h : construct pt = .ok b)
    (hN : pt.totalPatches < 4294967296) :
    b.map.handles = b.entries.map Prod.snd ∧
      b.map.offsets = (distinctKeys (b.entries.map Prod.fst)).map (countLt b.entries) ∧
      b.writes = List.range pt.totalPatches := by
  have hc := construct_created pt b h
  obtain ⟨ins, fin, hne, hins, hov, hmm, hfin, rfl⟩ := construct_eq pt b h
  obtain ⟨hi, hlen⟩ := arrayLoop_inv _ _ _ _ _ hins (insInv_init pt.ptexTable)
  have hmlen : ins.mmap.length = pt.totalPatches := by
    rw [hi.mmap_eq, MultiMap.ofList_length, keyed_length]; exact hc.1
  have hsorted : KeySorted ins.mmap := by
    rw [hi.mmap_eq]; exact MultiMap.ofList_sorted _
  have hent : Built.entries ⟨⟨fin.handles, fin.offsets⟩, ins.nfaces + 1, ins.created, fin.writes⟩ =
      ins.mmap := by
    simp only [Built.entries]; exact hi.mmap_eq.symm
  rw [hent]
  cases hm : ins.mmap with
  | nil => exact absurd hm hmm
  | cons first rest =>
    rw [hm] at hfin hsorted hmlen
    simp only [List.map_cons, List.headD_cons] at hfin
    obtain ⟨fin1, hfin1, hh, ho, hw⟩ := serialize_spec (first :: rest)
      { handlesIdx := 0
        faceId := first.1
        offsets := [0]
        handles := List.replicate (first :: rest).length default
        writes := [] } hsorted
      (by
        intro e he
        rcases List.mem_cons.1 he with rfl | he
        · exact Nat.le_refl _
        · exact hsorted.head_le e he)
      (by simp only [List.length_replicate]; omega)
      (by simp only [List.length_replicate]; omega)
    rw [hfin] at hfin1
    simp only [Except.ok.injEq] at hfin1
    subst hfin1
    dsimp only at hh ho hw
    refine ⟨?_, ?_, ?_⟩
    · simp only [hh]
      simp
    · simp only [ho]
      simp only [List.map_cons, distinctKeys]
      have h0 : countLt (first :: rest) first.1 = 0 := by
        apply countLt_eq_zero
        intro x hx
        rcases List.mem_cons.1 hx with rfl | hx
        · exact Nat.le_refl _
        · exact hsorted.head_le x hx
      simp [h0, distinctFrom_cons]
    · simp only [hw, List.nil_append, hmlen]
      exact (List.range_eq_range' (n := pt.totalPatches)).symm

theorem countLt_add_countEq (m : MultiMap) (d : Nat) :
    countLt m d + countEq m d = (m.filter (fun e => decide (e.1 ≤ d))).length := by
  induction m with
  | nil => simp [countLt, countEq]
  | cons e r ih =>
    unfold countLt countEq at ih ⊢
    simp only [List.filter_cons]
    rcases Nat.lt_trichotomy e.1 d with h | h | h
    · rw [if_pos (by simpa using h), if_neg (by simp; omega), if_pos (by simp; omega)]
      simp only [List.length_cons]; omega
    · rw [if_neg (by simp; omega), if_pos (by simpa using h), if_pos (by simp; omega)]
      simp only [List.length_cons]; omega
    · rw [if_neg (by simp; omega), if_neg (by simp; omega), if_neg (by simp; omega)]
      exact ih

theorem strict_index_le (D : List Nat) (hD : D.Pairwise (· < ·)) :
    ∀ i (hi : i < D.length), i ≤ D[i] := by
  intro i
  induction i with
  | zero => intro _; exact Nat.zero_le _
  | succ i ih =>
    intro hi
    have h1 := ih (by omega)
    have h2 := (List.pairwise_iff_getElem.1 hD) i (i + 1) (by omega) hi (by omega)
    omega

theorem strict_index_lt (D : List Nat) (hD : D.Pairwise (· < ·)) (i j : Nat)
    (hi : i < D.length) (hj : j < D.length) : D[i] < D[j] ↔ i < j := by
  constructor
  · intro h
    by_contra hcon
    rcases Nat.lt_or_ge j i with hlt | hge
    · have := (List.pairwise_iff_getElem.1 hD) j i hj hi hlt
      omega
    · have : i = j := by omega
      subst this
      omega
  · intro h
    exact (List.pairwise_iff_getElem.1 hD) i j hi hj h

/-- A strictly increasing list that contains `0, ..., F` has `i` at every index
`i ≤ F`. -/
theorem strict_prefix (D : List Nat) (hD : D.Pairwise (· < ·)) (F : Nat)
    (hall : ∀ i, i ≤ F → i ∈ D) : ∀ i, i ≤ F → D[i]? = some i := by
  intro i
  induction i using Nat.strong_induction_on with
  | _ i ih =>
    intro hiF
    obtain ⟨j, hj, hji⟩ := List.getElem_of_mem (hall i hiF)
    have hle := strict_index_le D hD j hj
    rcases Nat.lt_or_ge j i with hlt | hge
    · have := ih j hlt (by omega)
      rw [List.getElem?_eq_getElem hj] at this
      simp only [Option.some.injEq] at this
      omega
    · have : j = i := by omega
      subst this
      rw [List.getElem?_eq_getElem hj, hji]

theorem key_mem_distinctKeys (m : MultiMap) (hs : KeySorted m) (x : Nat × OsdPatchHandle)
    (hx : x ∈ m) : x.1 ∈ distinctKeys (m.map Prod.fst) :=
  (mem_distinctKeys _ (keys_sorted m hs) x.1).2 (List.mem_map_of_mem _ hx)

/-- The entries below the next distinct key are those up to the current one. -/
theorem countLt_next (m : MultiMap) (hs : KeySorted m) (r : Nat)
    (hr : r + 1 < (distinctKeys (m.map Prod.fst)).length) :
    countLt m ((distinctKeys (m.map Prod.fst))[r + 1]) =
      countLt m ((distinctKeys (m.map Prod.fst))[r]) +
        countEq m ((distinctKeys (m.map Prod.fst))[r]) := by
  have hD := distinctKeys_strict _ (keys_sorted m hs)
  rw [countLt_add_countEq]
  unfold countLt
  congr 1
  apply List.filter_congr
  intro x hx
  obtain ⟨i, hi, hxi⟩ := List.getElem_of_mem (key_mem_distinctKeys m hs x hx)
  have h1 := strict_index_lt _ hD i (r + 1) hi hr
  have h2 := strict_index_lt _ hD r i (by omega) hi
  rw [hxi] at h1 h2
  by_cases h : x.1 < (distinctKeys (m.map Prod.fst))[r + 1]
  · have : x.1 ≤ (distinctKeys (m.map Prod.fst))[r] := by
      have := h1.1 h
      by_contra hcon
      have := h2.1 (by omega)
      omega
    simp [h, this]
  · have : ¬ x.1 ≤ (distinctKeys (m.map Prod.fst))[r] := by
      intro hle
      have hir : ¬ r < i := fun hlt => by have := h2.2 hlt; omega
      exact h (h1.2 (by omega))
    simp [h, this]

/-- The entries of the last distinct key fill the multimap to its end. -/
theorem countLt_last (m : MultiMap) (hs : KeySorted m) (r : Nat)
    (hr : r + 1 = (distinctKeys (m.map Prod.fst)).length) :
    m.length = countLt m ((distinctKeys (m.map Prod.fst))[r]) +
        countEq m ((distinctKeys (m.map Prod.fst))[r]) := by
  have hD := distinctKeys_strict _ (keys_sorted m hs)
  rw [countLt_add_countEq]
  symm
  congr 1
  rw [List.filter_eq_self]
  intro x hx
  obtain ⟨i, hi, hxi⟩ := List.getElem_of_mem (key_mem_distinctKeys m hs x hx)
  have h2 := strict_index_lt _ hD r i (by omega) hi
  rw [hxi] at h2
  have : ¬ (distinctKeys (m.map Prod.fst))[r] < x.1 := fun hlt => by
    have := h2.1 hlt; omega
  simp; omega

theorem countEq_pos (m : MultiMap) (d : Nat) (x : Nat × OsdPatchHandle) (hx : x ∈ m)
    (hd : x.1 = d) : 0 < countEq m d := by
  unfold countEq
  apply List.length_pos_of_mem (a := x)
  rw [List.mem_filter]
  exact ⟨hx, by simpa using hd⟩

theorem toUInt_lt (z : Int) : toUInt z < 4294967296 := by
  unfold toUInt
  have h1 := Int.emod_nonneg z (b := 4294967296) (by decide)
  have h2 := Int.emod_lt_of_pos z (b := 4294967296) (by decide)
  omega

theorem toUInt_toInt (n : Nat) : toUInt (toInt n) = n % 4294967296 := by
  unfold toInt toUInt
  split <;> omega

theorem toInt_of_lt (n : Nat) (h : n < 2147483648) : toInt n = (n : Int) := by
  unfold toInt
  have : n % 4294967296 = n := Nat.mod_eq_of_lt (by omega)
  rw [this, if_pos h]

theorem toInt_lt (n : Nat) : toInt n < 2147483648 := by
  unfold toInt
  split <;> omega

theorem toInt_nonneg_iff (n : Nat) (h : n < 4294967296) : 0 ≤ toInt n ↔ n < 2147483648 := by
  unfold toInt
  split <;> omega

theorem patchLoop_faceIds (ptx : List FarPtexCoord) (arrayid : Nat) (pa : PatchArray) (n : Nat) :
    ∀ (j : Nat) (st st1 : InsertState), patchLoop ptx arrayid pa n j st = .ok st1 →
      st1.created.map Prod.fst = st.created.map Prod.fst ++ (List.range' j n).filterMap
        (fun j => (ptx[(pa.patchIndex + j) % 4294967296]?).map FarPtexCoord.faceIndex) ∧
      st1.nfaces = (((List.range' j n).filterMap
        (fun j => (ptx[(pa.patchIndex + j) % 4294967296]?).map FarPtexCoord.faceIndex)).map
          toInt).foldl max st.nfaces := by
  induction n with
  | zero =>
    intro j st st1 h
    simp only [patchLoop, Except.ok.injEq] at h
    subst h
    simp
  | succ n ih =>
    intro j st st1 h
    unfold patchLoop at h
    split at h
    · cases h
    · rename_i st2 h2
      obtain ⟨c, hc, rfl⟩ := insertPatch_eq ptx arrayid pa j st st2 h2
      obtain ⟨h3, h4⟩ := ih (j + 1) _ st1 h
      dsimp only at h3 h4
      rw [h3, h4]
      simp [List.range'_succ, List.filterMap_cons, hc]

theorem arrayLoop_faceIds (ptx : List FarPtexCoord) (arrays : List PatchArray) :
    ∀ (arrayid : Nat) (st st1 : InsertState), arrayLoop ptx arrays arrayid st = .ok st1 →
      st1.created.map Prod.fst = st.created.map Prod.fst ++ arrays.flatMap (arrayFaceIds ptx) ∧
      st1.nfaces = ((arrays.flatMap (arrayFaceIds ptx)).map toInt).foldl max st.nfaces := by
  induction arrays with
  | nil =>
    intro arrayid st st1 h
    simp only [arrayLoop, Except.ok.injEq] at h
    subst h
    simp
  | cons pa rest ih =>
    intro arrayid st st1 h
    unfold arrayLoop at h
    split at h
    · cases h
    · rename_i st2 h2
      obtain ⟨h3, h4⟩ := patchLoop_faceIds ptx arrayid pa pa.numPatches 0 st st2 h2
      obtain ⟨h5, h6⟩ := ih (arrayid + 1) st2 st1 h
      rw [h5, h6, h3, h4]
      simp [arrayFaceIds, List.range_eq_range', List.foldl_append]

/-- The history of a run lists the face ids of the table, and `nfaces` ends one above the
largest of them. -/
theorem construct_faceIds (pt : FarPatchTables) (b : Built) (h : construct pt = .ok b) :
    b.created.map Prod.fst = pt.faceIds ∧ b.nfaces = pt.maxFaceId + 1 := by
  obtain ⟨ins, fin, hne, hins, hov, hmm, hfin, rfl⟩ := construct_eq pt b h
  obtain ⟨h1, h2⟩ := arrayLoop_faceIds _ _ _ _ _ hins
  simp only [List.map_nil, List.nil_append] at h1
  exact ⟨h1, by simp only [h2]; rfl⟩

theorem entries_sorted (b : Built) : KeySorted b.entries := MultiMap.ofList_sorted _

theorem created_inRange (pt : FarPatchTables) (b : Built) (h : construct pt = .ok b)
    (hr : pt.InRange) : ∀ e ∈ b.created, e.1 < 4294967296 := by
  intro e he
  obtain ⟨c, hc, hce⟩ := (construct_created pt b h).2.2.2.2.2.2.2.1 e he
  rw [← hce]
  exact hr.2 c hc

/-- With 32-bit face ids the key of a patch in the multimap is its face id: the multimap
holds the patches of the history. -/
theorem entries_eq (pt : FarPatchTables) (b : Built) (h : construct pt = .ok b)
    (hr : pt.InRange) : b.entries = MultiMap.ofList b.created := by
  unfold Built.entries
  congr 1
  unfold keyed
  conv_rhs => rw [← List.map_id b.created]
  apply List.map_congr_left
  intro e he
  have := created_inRange pt b h hr e he
  rw [toUInt_toInt, Nat.mod_eq_of_lt this]
  rfl

theorem entries_perm (pt : FarPatchTables) (b : Built) (h : construct pt = .ok b)
    (hr : pt.InRange) : b.entries.Perm b.created := by
  rw [entries_eq pt b h hr]
  exact MultiMap.ofList_perm _

theorem entries_keys_perm (pt : FarPatchTables) (b : Built) (h : construct pt = .ok b)
    (hr : pt.InRange) : (b.entries.map Prod.fst).Perm pt.faceIds := by
  rw [← (construct_faceIds pt b h).1]
  exact (entries_perm pt b h hr).map _

theorem countEq_entries (pt : FarPatchTables) (b : Built) (h : construct pt = .ok b)
    (hr : pt.InRange) (F : Nat) : countEq b.entries F = pt.faceIds.count F := by
  unfold countEq
  rw [← List.countP_eq_length_filter, List.count, ← (entries_keys_perm pt b h hr).countP_eq,
    List.countP_map]
  apply List.countP_congr
  intro e _
  simp only [Function.comp_apply, decide_eq_true_eq, beq_iff_eq]

theorem key_mem_entries (pt : FarPatchTables) (b : Built) (h : construct pt = .ok b)
    (hr : pt.InRange) (F : Nat) : F ∈ b.entries.map Prod.fst ↔ F ∈ pt.faceIds :=
  (entries_keys_perm pt b h hr).mem_iff

theorem foldl_max_ge (l : List Int) : ∀ init : Int, init ≤ l.foldl max init := by
  induction l with
  | nil => intro init; exact le_refl _
  | cons a r ih => intro init; exact le_trans (le_max_left _ _) (ih (max init a))

theorem foldl_max_mem_le (l : List Int) : ∀ (init x : Int), x ∈ l → x ≤ l.foldl max init := by
  induction l with
  | nil => intro init x hx; simp at hx
  | cons a r ih =>
    intro init x hx
    rcases List.mem_cons.1 hx with rfl | hx
    · exact le_trans (le_max_right _ _) (foldl_max_ge r _)
    · exact ih _ x hx

theorem maxFaceId_nonneg (pt : FarPatchTables) : 0 ≤ pt.maxFaceId := foldl_max_ge _ 0

theorem faceId_le_max (pt : FarPatchTables) (f : Nat) (hf : f ∈ pt.faceIds) :
    toInt f ≤ pt.maxFaceId :=
  foldl_max_mem_le _ 0 _ (List.mem_map_of_mem _ hf)

theorem arrayFaceIds_length_le (ptx : List FarPtexCoord) (pa : PatchArray) :
    (arrayFaceIds ptx pa).length ≤ pa.numPatches := by
  unfold arrayFaceIds
  exact le_trans (List.length_filterMap_le _ _) (by simp)

theorem faceIds_length_le (pt : FarPatchTables) : pt.faceIds.length ≤ pt.totalPatches := by
  unfold FarPatchTables.faceIds FarPatchTables.totalPatches
  induction pt.patchArrays with
  | nil => simp
  | cons pa r ih =>
    simp only [List.flatMap_cons, List.length_append, List.map_cons, List.sum_cons]
    have := arrayFaceIds_length_le pt.ptexTable pa
    omega

theorem totalPatches_pos_of_mem (pt : FarPatchTables) (f : Nat) (hf : f ∈ pt.faceIds) :
    0 < pt.totalPatches :=
  lt_of_lt_of_le (List.length_pos_of_mem hf) (faceIds_length_le pt)

theorem faceIds_inRange (pt : FarPatchTables) (b : Built) (h : construct pt = .ok b)
    (hr : pt.InRange) (f : Nat) (hf : f ∈ pt.faceIds) : f < 4294967296 := by
  rw [← (construct_faceIds pt b h).1] at hf
  obtain ⟨e, he, rfl⟩ := List.mem_map.1 hf
  exact created_inRange pt b h hr e he

/-- When every id up to `F` is the face id of a patch, entry `F` of the offsets is the
number of patches with a face id below `F`, and `F` is the distinct key of rank `F`. -/
theorem offsets_at (pt : FarPatchTables) (b : Built) (h : construct pt = .ok b)
    (hr : pt.InRange) (F : Nat) (hall : ∀ i : Nat, i ≤ F → i ∈ pt.faceIds) :
    (distinctKeys (b.entries.map Prod.fst))[F]? = some F ∧
      b.map.offsets[F]? = some (countLt b.entries F) := by
  have hs := construct_serialized pt b h (by have := hr.1; omega)
  have hD := distinctKeys_strict _ (keys_sorted _ (entries_sorted b))
  have hmem : ∀ i, i ≤ F → i ∈ distinctKeys (b.entries.map Prod.fst) := by
    intro i hi
    rw [mem_distinctKeys _ (keys_sorted _ (entries_sorted b)), key_mem_entries pt b h hr i]
    exact hall i hi
  have hF := strict_prefix _ hD F hmem F (Nat.le_refl F)
  refine ⟨hF, ?_⟩
  rw [hs.2.1, List.getElem?_map, hF]
  rfl

theorem scenario_hasEntries : scenario.HasEntries := by
  intro pa hpa j hj
  simp only [scenario, List.mem_cons, List.mem_singleton, List.not_mem_nil, or_false] at hpa
  rcases hpa with rfl | rfl
  · simp only at hj ⊢
    interval_cases j <;> decide
  · simp only at hj ⊢
    interval_cases j <;> decide

theorem scenario_inRange : scenario.InRange := by
  constructor <;> decide

theorem scenario_dense : scenario.Dense := by
  intro F hF
  have h3 : scenario.maxFaceId = 3 := by decide
  rw [h3] at hF
  have : F ≤ 3 := by omega
  interval_cases F <;> decide

theorem gapTable_hasEntries : gapTable.HasEntries := by
  intro pa hpa j hj
  simp only [gapTable, List.mem_singleton] at hpa
  subst hpa
  simp only at hj ⊢
  interval_cases j <;> decide

theorem gapTable_inRange : gapTable.InRange := by
  constructor <;> decide

theorem offsets_length (pt : FarPatchTables) (b : Built) (h : construct pt = .ok b)
    (hr : pt.InRange) :
    b.map.offsets.length = (distinctKeys (b.entries.map Prod.fst)).length := by
  rw [(construct_serialized pt b h (by have := hr.1; omega)).2.1, List.length_map]

theorem handles_length (pt : FarPatchTables) (b : Built) (h : construct pt = .ok b) :
    b.map.handles.length = b.entries.length ∧ b.entries.length = pt.totalPatches := by
  have hc := construct_created pt b h
  have : b.entries.length = pt.totalPatches := by
    unfold Built.entries
    rw [MultiMap.ofList_length, keyed_length, hc.1]
  exact ⟨by rw [this]; exact hc.2.2.2.2.2.2.2.2, this⟩

/-- The offset after entry `r` is the offset of `r` plus the number of entries of its key;
after the last entry, the handles end there. -/
theorem offsets_step (pt : FarPatchTables) (b : Built) (h : construct pt = .ok b)
    (hr : pt.InRange) (r d : Nat) (hd : (distinctKeys (b.entries.map Prod.fst))[r]? = some d) :
    b.map.offsets[r]? = some (countLt b.entries d) ∧
      (b.map.offsets[r + 1]?).getD b.map.handles.length =
        countLt b.entries d + countEq b.entries d := by
  have hs := construct_serialized pt b h (by have := hr.1; omega)
  have hlen := handles_length pt b h
  obtain ⟨hrlt, hrd⟩ := List.getElem?_eq_some_iff.1 hd
  constructor
  · rw [hs.2.1, List.getElem?_map, hd]; rfl
  · rcases Nat.lt_or_ge (r + 1) (distinctKeys (b.entries.map Prod.fst)).length with hlt | hge
    · have := countLt_next b.entries (entries_sorted b) r hlt
      rw [hs.2.1, List.getElem?_map, List.getElem?_eq_getElem hlt]
      simp only [Option.map_some', Option.getD_some]
      rw [this, hrd]
    · have := countLt_last b.entries (entries_sorted b) r (by omega)
      rw [hs.2.1, List.getElem?_map, List.getElem?_eq_none (by omega)]
      simp only [Option.map_none', Option.getD_none]
      rw [hlen.1, this, hrd]

theorem entries_ne_nil (pt : FarPatchTables) (b : Built) (h : construct pt = .ok b) :
    b.entries ≠ [] := by
  have hc := construct_created pt b h
  have hl := handles_length pt b h
  intro hnil
  rw [hnil] at hl
  simp only [List.length_nil] at hl
  omega

theorem distinctKeys_ne_nil (ks : List Nat) (h : ks ≠ []) : distinctKeys ks ≠ [] := by
  cases ks with
  | nil => exact absurd rfl h
  | cons k r => simp [distinctKeys]

theorem distinctKeys_length_le (ks : List Nat) : (distinctKeys ks).length ≤ ks.length := by
  have aux : ∀ (r : List Nat) (prev : Nat), (distinctFrom prev r).length ≤ r.length := by
    intro r
    induction r with
    | nil => intro prev; simp [distinctFrom]
    | cons k r ih =>
      intro prev
      rw [distinctFrom_cons]
      split
      · simp only [List.length_cons]; have := ih k; omega
      · simp only [List.length_cons]; have := ih k; omega
  cases ks with
  | nil => simp [distinctKeys]
  | cons k r =>
    simp only [distinctKeys, List.length_cons]
    have := aux r k
    omega

/-- The offsets of a built map: at least one, at most as many as there are patches. -/
theorem offsets_length_bounds (pt : FarPatchTables) (b : Built) (h : construct pt = .ok b)
    (hr : pt.InRange) : 0 < b.map.offsets.length ∧ b.map.offsets.length ≤ pt.totalPatches := by
  rw [offsets_length pt b h hr]
  constructor
  · apply List.length_pos.2
    apply distinctKeys_ne_nil
    intro hnil
    exact entries_ne_nil pt b h (List.map_eq_nil_iff.1 hnil)
  · have := distinctKeys_length_le (b.entries.map Prod.fst)
    rw [List.length_map, (handles_length pt b h).2] at this
    exact this

/-- The lookup at an entry `r` of the offsets other than the last: the count written is the
difference of the two offsets plus one. -/
theorem lookup_inner (pm : PatchMap) (r s t : Nat) (hs : pm.offsets[r]? = some s)
    (ht : pm.offsets[r + 1]? = some t) (hst : s ≤ t) (hsl : s < pm.handles.length)
    (ht31 : t < 2147483647) (hl : pm.offsets.length < 2147483648) :
    pm.GetChildPatchesHandles (r : Int) = .success ((t : Int) - (s : Int) + 1) s := by
  obtain ⟨hrlt, _⟩ := List.getElem?_eq_some_iff.1 ht
  have hh : pm.handles.isEmpty = false := by
    cases hp : pm.handles with
    | nil => rw [hp] at hsl; simp at hsl
    | cons a l => rfl
  have ho : pm.offsets.isEmpty = false := by
    cases hp : pm.offsets with
    | nil => rw [hp] at hrlt; simp at hrlt
    | cons a l => rfl
  have hti := toInt_of_lt pm.offsets.length hl
  unfold PatchMap.GetChildPatchesHandles
  rw [hh, ho, hti]
  have hg : ¬ ((r : Int) ≥ (pm.offsets.length : Int)) := by omega
  simp only [Bool.false_or, decide_eq_true_eq, hg, if_false]
  have hne : ¬ ((r : Int) = (pm.offsets.length : Int) - 1) := by omega
  rw [if_neg hne]
  have h1 : readOffset pm.offsets ((r : Int) + 1) = some t := by
    unfold readOffset
    rw [if_neg (by omega)]
    have : ((r : Int) + 1).toNat = r + 1 := by omega
    rw [this, ht]
  have h2 : readOffset pm.offsets (r : Int) = some s := by
    unfold readOffset
    rw [if_neg (by omega)]
    simp only [Int.toNat_ofNat]
    exact hs
  rw [h1, h2]
  simp only [hsl, if_true]
  congr 1
  have : (t + 4294967296 - s % 4294967296 + 1) % 4294967296 = t - s + 1 := by omega
  rw [this, toInt_of_lt _ (by omega)]
  omega

/-- The lookup at the last entry `r` of the offsets: the count written is the number of
handles from that offset to the end. -/
theorem lookup_last (pm : PatchMap) (r s : Nat) (hs : pm.offsets[r]? = some s)
    (hr : r + 1 = pm.offsets.length) (hsl : s < pm.handles.length)
    (hl : pm.handles.length < 2147483648) (hl2 : pm.offsets.length < 2147483648) :
    pm.GetChildPatchesHandles (r : Int) =
      .success ((pm.handles.length : Int) - (s : Int)) s := by
  have hh : pm.handles.isEmpty = false := by
    cases hp : pm.handles with
    | nil => rw [hp] at hsl; simp at hsl
    | cons a l => rfl
  have ho : pm.offsets.isEmpty = false := by
    cases hp : pm.offsets with
    | nil => rw [hp] at hr; simp at hr
    | cons a l => rfl
  have hti := toInt_of_lt pm.offsets.length hl2
  unfold PatchMap.GetChildPatchesHandles
  rw [hh, ho, hti]
  have hg : ¬ ((r : Int) ≥ (pm.offsets.length : Int)) := by omega
  simp only [Bool.false_or, decide_eq_true_eq, hg, if_false]
  have hne : (r : Int) = (pm.offsets.length : Int) - 1 := by omega
  rw [if_pos hne]
  have h2 : readOffset pm.offsets (r : Int) = some s := by
    unfold readOffset
    rw [if_neg (by omega)]
    simp only [Int.toNat_ofNat]
    exact hs
  rw [h2]
  simp only [hsl, if_true]
  congr 1
  have : ((pm.handles.length % 4294967296 + 4294967296 - 1) % 4294967296 + 4294967296 -
      s % 4294967296 + 1) % 4294967296 = pm.handles.length - s := by omega
  rw [this, toInt_of_lt _ (by omega)]
  omega

theorem distinctKey_is_key (b : Built) (d : Nat)
    (hd : d ∈ distinctKeys (b.entries.map Prod.fst)) : ∃ x ∈ b.entries, x.1 = d := by
  rw [mem_distinctKeys _ (keys_sorted _ (entries_sorted b))] at hd
  obtain ⟨x, hx, hxd⟩ := List.mem_map.1 hd
  exact ⟨x, hx, hxd⟩

/-- Every offset of a built map is the start of a non-empty run inside the handles. -/
theorem offsets_run_pos (pt : FarPatchTables) (b : Built) (h : construct pt = .ok b)
    (hr : pt.InRange) (r s : Nat) (hs : b.map.offsets[r]? = some s) :
    ∃ d, (distinctKeys (b.entries.map Prod.fst))[r]? = some d ∧ s = countLt b.entries d ∧
      0 < countEq b.entries d ∧
      (b.map.offsets[r + 1]?).getD b.map.handles.length = s + countEq b.entries d ∧
      s + countEq b.entries d ≤ b.map.handles.length := by
  obtain ⟨hrlt, _⟩ := List.getElem?_eq_some_iff.1 hs
  rw [offsets_length pt b h hr] at hrlt
  have hd := List.getElem?_eq_getElem hrlt
  have hst := offsets_step pt b h hr r _ hd
  rw [hs] at hst
  simp only [Option.some.injEq] at hst
  obtain ⟨x, hx, hxd⟩ := distinctKey_is_key b _ (List.getElem_mem hrlt)
  refine ⟨_, hd, hst.1, countEq_pos b.entries _ x hx hxd, by rw [hst.2, hst.1], ?_⟩
  rw [hst.1, countLt_add_countEq, (handles_length pt b h).1]
  exact List.length_filter_le _ _

/-- With face ids that are non-negative as `int`, the offsets of a built map are at most
`nfaces`. -/
theorem offsets_length_le_nfaces (pt : FarPatchTables) (b : Built) (h : construct pt = .ok b)
    (hr : pt.InRange) (hnn : ∀ f ∈ pt.faceIds, 0 ≤ toInt f) :
    (b.map.offsets.length : Int) ≤ b.nfaces := by
  have hD := distinctKeys_strict _ (keys_sorted _ (entries_sorted b))
  have hpos := (offsets_length_bounds pt b h hr).1
  rw [offsets_length pt b h hr] at hpos ⊢
  have hlast : (distinctKeys (b.entries.map Prod.fst)).length - 1 <
      (distinctKeys (b.entries.map Prod.fst)).length := by omega
  have hle := strict_index_le _ hD _ hlast
  have hmem := List.getElem_mem hlast
  rw [mem_distinctKeys _ (keys_sorted _ (entries_sorted b)), key_mem_entries pt b h hr] at hmem
  have h0 := hnn _ hmem
  have h1 := faceId_le_max pt _ hmem
  have h31 := (toInt_nonneg_iff _ (faceIds_inRange pt b h hr _ hmem)).1 h0
  rw [toInt_of_lt _ h31] at h1
  rw [(construct_faceIds pt b h).2]
  omega

theorem created_serial (pt : FarPatchTables) (b : Built) (h : construct pt = .ok b)
    (hr : pt.InRange) :
    b.created.map (fun e => e.2.serialIndex) = List.range pt.totalPatches := by
  have hc := construct_created pt b h
  rw [hc.2.2.2.2.2.2.1, hc.1]
  conv_rhs => rw [← List.map_id (List.range pt.totalPatches)]
  apply List.map_congr_left
  intro i hi
  have := List.mem_range.1 hi
  have := hr.1
  simp only [id_eq]
  omega

/-- The multimap is ordered by face id first and serial index second: patches of one face
id keep the order in which they were met. -/
theorem entries_lex (pt : FarPatchTables) (b : Built) (h : construct pt = .ok b)
    (hr : pt.InRange) :
    b.entries.Pairwise (fun x y =>
      x.1 < y.1 ∨ (x.1 = y.1 ∧ x.2.serialIndex < y.2.serialIndex)) := by
  have hser : b.created.Pairwise (fun x y => x.2.serialIndex < y.2.serialIndex) := by
    have h1 : (b.created.map (fun x => x.2.serialIndex)).Pairwise (· < ·) := by
      rw [created_serial pt b h hr]
      exact List.pairwise_lt_range _
    exact List.pairwise_map.1 h1
  have hk : ∀ k : Nat, b.entries.Pairwise (fun x y =>
      x.1 = k → y.1 = k → x.2.serialIndex < y.2.serialIndex) := by
    intro k
    apply (List.pairwise_filter (p := fun x : Nat × OsdPatchHandle => x.1 = k)).1
    have hf : b.entries.filter (fun x => decide (x.1 = k)) =
        b.created.filter (fun x => decide (x.1 = k)) := by
      rw [entries_eq pt b h hr]
      exact MultiMap.ofList_filter _ k
    rw [hf]
    exact List.Pairwise.sublist (List.filter_sublist _) hser
  rw [List.pairwise_iff_getElem]
  intro i j hi hj hij
  have hle := (List.pairwise_iff_getElem.1 (entries_sorted b)) i j hi hj hij
  rcases Nat.lt_or_ge (b.entries[i]).1 (b.entries[j]).1 with hlt | hge
  · exact Or.inl hlt
  · have heq : (b.entries[i]).1 = (b.entries[j]).1 := by omega
    refine Or.inr ⟨heq, ?_⟩
    exact (List.pairwise_iff_getElem.1 (hk (b.entries[j]).1)) i j hi hj hij heq rfl

theorem countLt_strict (m : MultiMap) (d1 d2 : Nat) (h : d1 < d2) :
    countLt m d1 + countEq m d1 ≤ countLt m d2 := by
  rw [countLt_add_countEq]
  unfold countLt
  rw [← List.countP_eq_length_filter, ← List.countP_eq_length_filter]
  apply List.countP_mono_left
  intro x _ hx
  simp only [decide_eq_true_eq] at hx ⊢
  omega

/-- The offsets of a built map increase strictly. -/
theorem offsets_strict (pt : FarPatchTables) (b : Built) (h : construct pt = .ok b)
    (hr : pt.InRange) : b.map.offsets.Pairwise (· < ·) := by
  have hs := construct_serialized pt b h (by have := hr.1; omega)
  have hD := distinctKeys_strict _ (keys_sorted _ (entries_sorted b))
  rw [hs.2.1, List.pairwise_map]
  apply List.Pairwise.imp_of_mem _ hD
  intro d1 d2 h1 _ hlt
  obtain ⟨x, hx, hxd⟩ := distinctKey_is_key b d1 h1
  have hpos := countEq_pos b.entries d1 x hx hxd
  have := countLt_strict b.entries d1 d2 hlt
  omega

/-- The lookup on a built map at a face id inside `0..offsets.size()-1`: it returns `true`
with the offset of the entry, a count of at least one, and a range inside `handles`. -/
theorem lookup_in_bounds (pt : FarPatchTables) (b : Built) (h : construct pt = .ok b)
    (hr : pt.InRange) (r s : Nat) (hs : b.map.offsets[r]? = some s) :
    ∃ n : Nat, b.map.GetChildPatchesHandles (r : Int) = .success (n : Int) s ∧
      1 ≤ n ∧ s + n ≤ b.map.handles.length := by
  have hN := hr.1
  have hl := handles_length pt b h
  have hb := offsets_length_bounds pt b h hr
  obtain ⟨hrlt, _⟩ := List.getElem?_eq_some_iff.1 hs
  obtain ⟨d, _, _, hcpos, hnext, hle⟩ := offsets_run_pos pt b h hr r s hs
  rcases Nat.lt_or_ge (r + 1) b.map.offsets.length with hlt | hge
  · have ht := List.getElem?_eq_getElem hlt
    rw [ht] at hnext
    simp only [Option.getD_some] at hnext
    obtain ⟨d2, _, _, hcpos2, _, hle2⟩ := offsets_run_pos pt b h hr (r + 1) _ ht
    have hlk := lookup_inner b.map r s _ hs ht (by omega) (by omega) (by omega) (by omega)
    refine ⟨b.map.offsets[r + 1] - s + 1, ?_, by omega, by omega⟩
    rw [hlk]
    congr 1
    omega
  · rw [List.getElem?_eq_none (by omega)] at hnext
    simp only [Option.getD_none] at hnext
    have hlk := lookup_last b.map r s hs (by omega) (by omega) (by omega) (by omega)
    refine ⟨b.map.handles.length - s, ?_, by omega, by omega⟩
    rw [hlk]
    congr 1
    omega

/-- The serialisation loop runs to completion on a sorted multimap that fits the handles:
the order assertion holds at every entry and every write is inside `_handles`. -/
theorem serialize_ok (l : MultiMap) : ∀ (st : SerState), KeySorted l →
    (∀ e ∈ l, st.faceId ≤ e.1) → st.handlesIdx + l.length ≤ st.handles.length →
    ∃ fin, serialize l st = .ok fin := by
  induction l with
  | nil => intro st _ _ _; exact ⟨st, rfl⟩
  | cons e r ih =>
    intro st hs hge hlen
    have hlen1 : st.handlesIdx + (r.length + 1) ≤ st.handles.length := by
      simpa using hlen
    have hge0 : ¬ e.1 < st.faceId := by
      have := hge e (List.mem_cons_self _ _); omega
    have hidx : st.handlesIdx < st.handles.length := by omega
    have hmod : (st.handlesIdx + 1) % 4294967296 ≤ st.handlesIdx + 1 := Nat.mod_le _ _
    unfold serialize serializeStep
    rw [if_neg hge0]
    by_cases hne : e.1 = st.faceId
    · simp only [hne, ne_eq, not_true_eq_false, if_false, hidx, if_true]
      apply ih
      · exact hs.tail
      · intro x hx; simp only; rw [← hne]; exact hs.head_le x hx
      · simp only [List.length_set]; omega
    · simp only [ne_eq, hne, not_false_eq_true, if_true, hidx]
      apply ih
      · exact hs.tail
      · intro x hx; exact hs.head_le x hx
      · simp only [List.length_set]; omega

theorem totalPatches_pos_ptex (pt : FarPatchTables) (hent : pt.HasEntries)
    (hpos : 0 < pt.totalPatches) : pt.ptexTable ≠ [] := by
  intro hp
  have : ∃ pa ∈ pt.patchArrays, 0 < pa.numPatches := by
    by_contra hcon
    push_neg at hcon
    have : pt.totalPatches = 0 := by
      unfold FarPatchTables.totalPatches
      apply List.sum_eq_zero
      intro x hx
      obtain ⟨pa, hpa, rfl⟩ := List.mem_map.1 hx
      have := hcon pa hpa
      omega
    omega
  obtain ⟨pa, hpa, hpos1⟩ := this
  have := hent pa hpa 0 hpos1
  rw [hp] at this
  simp at this

/-- The constructor runs to completion on every table with at least one patch and an entry
for every patch, when the number of patches is an `int` value and the largest face id read
is below `INT_MAX`. -/
theorem construct_total (pt : FarPatchTables) (hent : pt.HasEntries)
    (hpos : 0 < pt.totalPatches) (hN : pt.totalPatches < 2147483648)
    (hfit : pt.maxFaceId < 2147483647) : ∃ b, construct pt = .ok b := by
  obtain ⟨ins, hins⟩ := arrayLoop_ok pt.ptexTable pt.patchArrays 0
    { mmap := [], nfaces := 0, created := [] } hent
  obtain ⟨hi, hlen⟩ := arrayLoop_inv _ _ _ _ _ hins (insInv_init pt.ptexTable)
  have hmlen : ins.mmap.length = pt.totalPatches := by
    rw [hi.mmap_eq, MultiMap.ofList_length, keyed_length, hlen]
    simp [FarPatchTables.totalPatches]
  have hsorted : KeySorted ins.mmap := by
    rw [hi.mmap_eq]; exact MultiMap.ofList_sorted _
  have hne : pt.ptexTable.isEmpty = false := by
    cases hp : pt.ptexTable with
    | nil => exact absurd hp (totalPatches_pos_ptex pt hent hpos)
    | cons c cs => rfl
  have hnf : ¬ (2147483647 ≤ ins.nfaces) := by
    have h2 := (arrayLoop_faceIds _ _ _ _ _ hins).2
    have h3 : ins.nfaces = pt.maxFaceId := h2
    omega
  unfold construct
  rw [if_neg (by omega), hne]
  simp only [Bool.false_eq_true, if_false, hins, if_neg hnf]
  cases hm : ins.mmap with
  | nil => rw [hm] at hmlen; simp at hmlen; omega
  | cons first rest =>
    rw [hm] at hsorted hmlen
    obtain ⟨fin1, hfin1⟩ := serialize_ok (first :: rest)
      { handlesIdx := 0
        faceId := first.1
        offsets := [0]
        handles := List.replicate (first :: rest).length default
        writes := [] } hsorted
      (by
        intro e he
        rcases List.mem_cons.1 he with rfl | he
        · exact Nat.le_refl _
        · exact hsorted.head_le e he)
      (by simp only [List.length_replicate]; omega)
    simp only [hfin1]
    exact ⟨_, rfl⟩

/-- The constructor runs to completion on a table with an entry for every patch, at least
one patch, a number of patches that is an `int` value and a largest face id below
`INT_MAX`. -/
theorem construct_ok (pt : FarPatchTables) (hent : pt.HasEntries) (hpos : 0 < pt.totalPatches)
    (hN : pt.totalPatches < 2147483648) (hfit : pt.maxFaceId < 2147483647) :
    ∃ b, construct pt = .ok b :=
  construct_total pt hent hpos hN hfit

theorem noPatchTable_hasEntries : noPatchTable.HasEntries := by
  intro pa hpa
  simp [noPatchTable] at hpa

theorem patchLoop_created (ptx : List FarPtexCoord) (arrayid : Nat) (pa : PatchArray)
    (n : Nat) : ∀ (j : Nat) (st st1 : InsertState),
      patchLoop ptx arrayid pa n j st = .ok st1 →
      st1.mmap.length = st.mmap.length + n ∧
      st1.created = st.created ++ (List.range n).filterMap (fun k =>
        (ptx[(pa.patchIndex + (j + k)) % 4294967296]?).map (fun c =>
          (c.faceIndex,
            { patchArrayIndex := arrayid
              controlVertexOffset := toUInt (((j + k : Nat) : Int) * pa.numControlVertices)
              serialIndex := (st.mmap.length + k) % 4294967296 }))) := by
  induction n with
  | zero =>
    intro j st st1 h
    simp only [patchLoop, Except.ok.injEq] at h
    subst h
    simp
  | succ n ih =>
    intro j st st1 h
    unfold patchLoop at h
    split at h
    · cases h
    · rename_i st2 h2
      obtain ⟨c, hc, rfl⟩ := insertPatch_eq ptx arrayid pa j st st2 h2
      obtain ⟨h3, h4⟩ := ih (j + 1) _ st1 h
      dsimp only at h3 h4
      rw [MultiMap.length_insert] at h3 h4
      refine ⟨by omega, ?_⟩
      rw [h4, List.range_succ_eq_map, List.filterMap_cons]
      simp only [Nat.add_zero, hc, Option.map_some', List.append_assoc, List.singleton_append,
        List.filterMap_map]
      congr 2
      apply List.filterMap_congr
      intro k _
      simp only [Function.comp_apply]
      have e1 : j + 1 + k = j + (k + 1) := by omega
      have e2 : st.mmap.length + 1 + k = st.mmap.length + (k + 1) := by omega
      rw [e1, e2]

theorem arrayLoop_created (ptx : List FarPtexCoord) (arrays : List PatchArray) :
    ∀ (arrayid : Nat) (st st1 : InsertState), arrayLoop ptx arrays arrayid st = .ok st1 →
      st1.created = st.created ++ patchesFrom ptx arrays arrayid st.mmap.length := by
  induction arrays with
  | nil =>
    intro arrayid st st1 h
    simp only [arrayLoop, Except.ok.injEq] at h
    subst h
    simp [patchesFrom]
  | cons pa rest ih =>
    intro arrayid st st1 h
    unfold arrayLoop at h
    split at h
    · cases h
    · rename_i st2 h2
      obtain ⟨h3, h4⟩ := patchLoop_created ptx arrayid pa pa.numPatches 0 st st2 h2
      have h5 := ih (arrayid + 1) st2 st1 h
      rw [h5, h4, h3]
      simp only [patchesFrom, arrayPatches, Nat.zero_add, List.append_assoc]

/-- The history of a run is the list of the patches the insertion loops meet. -/
theorem construct_patches (pt : FarPatchTables) (b : Built) (h : construct pt = .ok b) :
    b.created = patchesFrom pt.ptexTable pt.patchArrays 0 0 := by
  obtain ⟨ins, fin, hne, hins, hov, hmm, hfin, rfl⟩ := construct_eq pt b h
  have := arrayLoop_created _ _ _ _ _ hins
  simpa using this

theorem arrayPatches_snd (ptx : List FarPtexCoord) (arrayid : Nat) (pa : PatchArray)
    (base : Nat)
    (hent : ∀ j, j < pa.numPatches → (pa.patchIndex + j) % 4294967296 < ptx.length)
    (hcv : ∀ j, j < pa.numPatches →
      0 ≤ (j : Int) * pa.numControlVertices ∧ (j : Int) * pa.numControlVertices < 4294967296)
    (hb : base + pa.numPatches ≤ 4294967296) :
    (arrayPatches ptx arrayid pa base).map Prod.snd =
      (List.range pa.numPatches).map (fun (j : Nat) =>
        { patchArrayIndex := arrayid
          controlVertexOffset := ((j : Int) * pa.numControlVertices).toNat
          serialIndex := base + j }) := by
  unfold arrayPatches
  rw [List.map_filterMap, ← List.filterMap_eq_map]
  apply List.filterMap_congr
  intro j hj
  have hj1 := List.mem_range.1 hj
  have hget := List.getElem?_eq_getElem (hent j hj1)
  have hc := hcv j hj1
  rw [hget]
  simp only [Option.map_some', Function.comp_apply, Option.some.injEq,
    OsdPatchHandle.mk.injEq, true_and]
  constructor
  · unfold toUInt
    rw [Int.emod_eq_of_lt hc.1 hc.2]
  · exact Nat.mod_eq_of_lt (by omega)

theorem patchesFrom_snd (ptx : List FarPtexCoord) (arrays : List PatchArray) :
    ∀ (arrayid base : Nat),
      (∀ pa ∈ arrays, ∀ j, j < pa.numPatches →
        (pa.patchIndex + j) % 4294967296 < ptx.length) →
      (∀ pa ∈ arrays, ∀ j, j < pa.numPatches →
        0 ≤ (j : Int) * pa.numControlVertices ∧
          (j : Int) * pa.numControlVertices < 4294967296) →
      base + (arrays.map PatchArray.numPatches).sum ≤ 4294967296 →
      (patchesFrom ptx arrays arrayid base).map Prod.snd =
        (List.range arrays.length).flatMap (fun i =>
          match arrays[i]? with
          | none => []
          | some pa => (List.range pa.numPatches).map (fun (j : Nat) =>
              { patchArrayIndex := arrayid + i
                controlVertexOffset := ((j : Int) * pa.numControlVertices).toNat
                serialIndex := base + ((arrays.take i).map PatchArray.numPatches).sum + j })) := by
  induction arrays with
  | nil => intro arrayid base _ _ _; simp [patchesFrom]
  | cons pa rest ih =>
    intro arrayid base hent hcv hb
    simp only [List.map_cons, List.sum_cons] at hb
    unfold patchesFrom
    rw [List.map_append, arrayPatches_snd ptx arrayid pa base
      (hent pa (List.mem_cons_self _ _)) (hcv pa (List.mem_cons_self _ _)) (by omega),
      ih (arrayid + 1) (base + pa.numPatches)
        (fun pa1 h1 => hent pa1 (List.mem_cons_of_mem _ h1))
        (fun pa1 h1 => hcv pa1 (List.mem_cons_of_mem _ h1)) (by omega)]
    simp only [List.length_cons, List.range_succ_eq_map, List.flatMap_cons, List.flatMap_map]
    congr 1
    · simp
    apply List.flatMap_congr
    intro i _
    simp only [Function.comp_apply, Nat.succ_eq_add_one, List.getElem?_cons_succ,
      List.take_succ_cons, List.map_cons, List.sum_cons]
    cases rest[i]? with
    | none => rfl
    | some pa1 =>
      simp only
      apply List.map_congr_left
      intro j _
      have e1 : arrayid + 1 + i = arrayid + (i + 1) := by omega
      have e2 : base + pa.numPatches + ((rest.take i).map PatchArray.numPatches).sum + j =
          base + (pa.numPatches + ((rest.take i).map PatchArray.numPatches).sum) + j := by
        omega
      rw [e1, e2]

/-- The handles created by a run, in encounter order, are the handles the specification
describes. -/
theorem created_specHandles (pt : FarPatchTables) (b : Built) (h : construct pt = .ok b)
    (hent : pt.HasEntries) (hr : pt.InRange) (hcv : pt.CvInRange) :
    b.created.map Prod.snd = pt.specHandles := by
  rw [construct_patches pt b h, patchesFrom_snd pt.ptexTable pt.patchArrays 0 0 hent hcv
    (by have := hr.1; unfold FarPatchTables.totalPatches at this; omega)]
  unfold FarPatchTables.specHandles
  simp only [Nat.zero_add]

theorem scenario_cvInRange : scenario.CvInRange := by
  intro pa hpa j hj
  simp only [scenario, List.mem_cons, List.mem_singleton, List.not_mem_nil, or_false] at hpa
  rcases hpa with rfl | rfl
  · simp only at hj ⊢
    interval_cases j <;> decide
  · simp only at hj ⊢
    interval_cases j <;> decide

/-- Dense face ids of a table in machine range stay below `INT_MAX`: there are at least
`maxFaceId + 1` patches. -/
theorem dense_fit (pt : FarPatchTables) (hr : pt.InRange) (hd : pt.Dense) :
    pt.maxFaceId < 2147483647 := by
  have h0 := maxFaceId_nonneg pt
  have hsub : List.range (pt.maxFaceId.toNat + 1) ⊆ pt.faceIds := by
    intro F hF
    rw [List.mem_range] at hF
    exact hd F (by omega)
  have hle := (List.nodup_range _).subperm hsub |>.length_le
  rw [List.length_range] at hle
  have := faceIds_length_le pt
  have := hr.1
  omega

/-- The constructor stops at `++nfaces` when the largest face id read is `INT_MAX`. -/
theorem construct_overflow (pt : FarPatchTables) (hent : pt.HasEntries)
    (hpos : 0 < pt.totalPatches) (hN : pt.totalPatches < 2147483648)
    (hbig : 2147483647 ≤ pt.maxFaceId) :
    construct pt = .error .nfacesOverflow := by
  obtain ⟨ins, hins⟩ := arrayLoop_ok pt.ptexTable pt.patchArrays 0
    { mmap := [], nfaces := 0, created := [] } hent
  have hne : pt.ptexTable.isEmpty = false := by
    cases hp : pt.ptexTable with
    | nil => exact absurd hp (totalPatches_pos_ptex pt hent hpos)
    | cons c cs => rfl
  have hnf : 2147483647 ≤ ins.nfaces := by
    have h3 : ins.nfaces = pt.maxFaceId := (arrayLoop_faceIds _ _ _ _ _ hins).2
    omega
  unfold construct
  rw [if_neg (by omega), hne]
  simp only [Bool.false_eq_true, if_false, hins, if_pos hnf]

theorem scenario_fit : scenario.maxFaceId < 2147483647 := by decide

theorem gapTable_fit : gapTable.maxFaceId < 2147483647 := by decide

theorem wrapTable_hasEntries : wrapTable.HasEntries := by
  intro pa hpa j hj
  simp only [wrapTable, List.mem_singleton] at hpa
  subst hpa
  simp only at hj ⊢
  interval_cases j <;> decide

theorem wrapTable_not_cvInRange : ¬ wrapTable.CvInRange := by
  intro hcon
  have := (hcon ⟨1073741824, 5, 0⟩ (by simp [wrapTable]) 4 (by decide)).2
  revert this
  decide

/-! ## Claims -/

/-- C3: on the scenario of the specification the lookup of face 2 succeeds and writes the
count 4, while 3 patches have face id 2. -/
theorem lookup_count_at_face_two :
    ∃ b, construct scenario = .ok b ∧ b.map.offsets = [0, 2, 3, 6] ∧
      b.map.handles.length = 7 ∧
      b.map.GetChildPatchesHandles 2 = .success 4 3 ∧ scenario.faceIds.count 2 = 3 :=
  ⟨_, rfl, by decide, by decide, by decide, by decide⟩

/-- C4: for a table with at least one patch, an entry for every patch and a largest face id
below `INT_MAX`, so that `++nfaces` does not overflow, the constructor builds a map on which the lookup of the last valid face id, `offsets.size() - 1`,
succeeds and writes the count `handles.size() - offsets[faceid]`, the offset being inside
`handles`; the code's `(unsigned int)_handles.size()-1`, the subtraction and the `+ 1` are
computed modulo `2^32` and the result is converted to `int`. -/
theorem lookup_last_face_count (pt : FarPatchTables) (hent : pt.HasEntries)
    (hpos : 0 < pt.totalPatches) (hr : pt.InRange) (hfit : pt.maxFaceId < 2147483647) :
    ∃ b off, construct pt = .ok b ∧ b.map.offsets[b.map.offsets.length - 1]? = some off ∧
      off < b.map.handles.length ∧
      b.map.GetChildPatchesHandles ((b.map.offsets.length : Int) - 1) =
        .success ((b.map.handles.length : Int) - (off : Int)) off := by
  obtain ⟨b, h⟩ := construct_ok pt hent hpos (by have := hr.1; omega) hfit
  have hb := offsets_length_bounds pt b h hr
  have hl := handles_length pt b h
  have hlast : b.map.offsets.length - 1 < b.map.offsets.length := by omega
  have hs := List.getElem?_eq_getElem hlast
  obtain ⟨d, _, _, hcpos, hnext, hle⟩ := offsets_run_pos pt b h hr _ _ hs
  refine ⟨b, _, h, hs, by omega, ?_⟩
  have hlk := lookup_last b.map (b.map.offsets.length - 1) _ hs (by omega) (by omega)
    (by have := hr.1; omega) (by have := hr.1; omega)
  have hcast : ((b.map.offsets.length - 1 : Nat) : Int) = (b.map.offsets.length : Int) - 1 := by
    omega
  rw [hcast] at hlk
  exact hlk

/-- Witness of C4 on the scenario of the specification. -/
theorem lookup_last_face_count_witness :
    scenario.HasEntries ∧ 0 < scenario.totalPatches ∧ scenario.InRange ∧
    scenario.maxFaceId < 2147483647 ∧
    ∃ b off, construct scenario = .ok b ∧
      b.map.offsets[b.map.offsets.length - 1]? = some off ∧
      off < b.map.handles.length ∧
      b.map.GetChildPatchesHandles ((b.map.offsets.length : Int) - 1) =
        .success ((b.map.handles.length : Int) - (off : Int)) off :=
  ⟨scenario_hasEntries, by decide, scenario_inRange, scenario_fit,
    lookup_last_face_count scenario scenario_hasEntries (by decide) scenario_inRange
      scenario_fit⟩

/-- C5: on the map built for the scenario of the specification, which is not empty, the
lookup of the negative face id `-1` does not return `false`: it passes the guard and reads
`_offsets[-1]`, outside the vector. -/
theorem lookup_negative_face_id :
    ∃ b, construct scenario = .ok b ∧
      b.map.GetChildPatchesHandles (-1) = .undefined ∧
      b.map.GetChildPatchesHandles (-1) ≠ .failure :=
  ⟨_, rfl, by decide, by decide⟩

/-- C6: for a table with at least one patch, an entry for every patch and face ids that are
non-negative as `int`, dense or not: when the largest face id is below `INT_MAX` the
constructor builds a map with `numFaces = maxFaceId + 1`, an `int` value, and at most
`numFaces` offsets, and the lookup of the face id `numFaces` returns failure; when the
largest face id is `INT_MAX`, `++nfaces` overflows and no map is built. -/
theorem lookup_numFaces_fails (pt : FarPatchTables) (hent : pt.HasEntries)
    (hpos : 0 < pt.totalPatches) (hr : pt.InRange) (hnn : ∀ f ∈ pt.faceIds, 0 ≤ toInt f) :
    (pt.maxFaceId < 2147483647 →
      ∃ b, construct pt = .ok b ∧ b.nfaces = pt.maxFaceId + 1 ∧ b.nfaces < 2147483648 ∧
        (b.map.offsets.length : Int) ≤ b.nfaces ∧
        b.map.GetChildPatchesHandles b.nfaces = .failure) ∧
    (2147483647 ≤ pt.maxFaceId → construct pt = .error .nfacesOverflow) := by
  refine ⟨?_, construct_overflow pt hent hpos hr.1⟩
  intro hfit
  obtain ⟨b, h⟩ := construct_ok pt hent hpos (by have := hr.1; omega) hfit
  have hle := offsets_length_le_nfaces pt b h hr hnn
  have hnf := (construct_faceIds pt b h).2
  refine ⟨b, h, hnf, by omega, hle, ?_⟩
  have hb := offsets_length_bounds pt b h hr
  have hti := toInt_of_lt b.map.offsets.length (by have := hr.1; omega)
  unfold PatchMap.GetChildPatchesHandles
  rw [hti]
  have hg : b.nfaces ≥ (b.map.offsets.length : Int) := hle
  simp only [hg, decide_True, Bool.or_true, if_true]

/-- Witness of C6 on the table with a gap in the face ids. -/
theorem lookup_numFaces_fails_witness :
    gapTable.HasEntries ∧ 0 < gapTable.totalPatches ∧ gapTable.InRange ∧
    (∀ f ∈ gapTable.faceIds, 0 ≤ toInt f) ∧ gapTable.maxFaceId < 2147483647 ∧
    ∃ b, construct gapTable = .ok b ∧ b.nfaces = gapTable.maxFaceId + 1 ∧
      b.nfaces < 2147483648 ∧ (b.map.offsets.length : Int) ≤ b.nfaces ∧
      b.map.GetChildPatchesHandles b.nfaces = .failure :=
  ⟨gapTable_hasEntries, by decide, gapTable_inRange, by decide, gapTable_fit,
    (lookup_numFaces_fails gapTable gapTable_hasEntries (by decide) gapTable_inRange
      (by decide)).1 gapTable_fit⟩

/-- C7: for a table with `N` patches in total, at least one, an entry for every patch and a
largest face id below `INT_MAX`, the constructor builds a map whose `handles` has exactly
`N` entries, and the serialisation loop writes the indices `0, ..., N-1` in turn, each
entry exactly once; the write at index `i` stores the handle of the `i`-th element of the
multimap, the multimap being the one obtained by inserting, in encounter order, the
patches the insertion loops meet in the tables. -/
theorem handles_written_once (pt : FarPatchTables) (hent : pt.HasEntries)
    (hpos : 0 < pt.totalPatches) (hr : pt.InRange) (hfit : pt.maxFaceId < 2147483647) :
    ∃ b, construct pt = .ok b ∧ b.map.handles.length = pt.totalPatches ∧
      b.writes = List.range pt.totalPatches ∧
      (∀ i, i < pt.totalPatches → b.writes.count i = 1) ∧
      b.map.handles =
        (MultiMap.ofList (patchesFrom pt.ptexTable pt.patchArrays 0 0)).map Prod.snd ∧
      ∀ i, i < pt.totalPatches → ∃ e,
        (MultiMap.ofList (patchesFrom pt.ptexTable pt.patchArrays 0 0))[i]? = some e ∧
        b.map.handles[i]? = some e.2 := by
  obtain ⟨b, h⟩ := construct_ok pt hent hpos (by have := hr.1; omega) hfit
  have hs := construct_serialized pt b h (by have := hr.1; omega)
  have hl := handles_length pt b h
  have hh : b.map.handles =
      (MultiMap.ofList (patchesFrom pt.ptexTable pt.patchArrays 0 0)).map Prod.snd := by
    rw [hs.1, entries_eq pt b h hr, construct_patches pt b h]
  refine ⟨b, h, by rw [hl.1, hl.2], hs.2.2, ?_, hh, ?_⟩
  · intro i hi
    rw [hs.2.2]
    exact List.count_eq_one_of_mem (List.nodup_range _) (List.mem_range.2 hi)
  · intro i hi
    have hlen : i < (MultiMap.ofList (patchesFrom pt.ptexTable pt.patchArrays 0 0)).length := by
      have := congrArg List.length hh
      rw [List.length_map] at this
      rw [← this, hl.1, hl.2]
      exact hi
    refine ⟨_, List.getElem?_eq_getElem hlen, ?_⟩
    rw [hh, List.getElem?_map, List.getElem?_eq_getElem hlen]
    rfl

/-- Witness of C7 on the scenario of the specification. -/
theorem handles_written_once_witness :
    scenario.HasEntries ∧ 0 < scenario.totalPatches ∧ scenario.InRange ∧
    scenario.maxFaceId < 2147483647 ∧
    ∃ b, construct scenario = .ok b ∧ b.map.handles.length = scenario.totalPatches ∧
      b.writes = List.range scenario.totalPatches ∧
      (∀ i, i < scenario.totalPatches → b.writes.count i = 1) ∧
      b.map.handles =
        (MultiMap.ofList (patchesFrom scenario.ptexTable scenario.patchArrays 0 0)).map
          Prod.snd ∧
      ∀ i, i < scenario.totalPatches → ∃ e,
        (MultiMap.ofList (patchesFrom scenario.ptexTable scenario.patchArrays 0 0))[i]? =
          some e ∧
        b.map.handles[i]? = some e.2 :=
  ⟨scenario_hasEntries, by decide, scenario_inRange, scenario_fit,
    handles_written_once scenario scenario_hasEntries (by decide) scenario_inRange
      scenario_fit⟩

/-- C8, as stated, fails when the face ids have a gap: with one patch on each of the faces
0, 2 and 3 the constructor computes `numFaces = maxFaceId + 1 = 4` and builds a map with 3
offsets. -/
theorem offsets_size_counterexample :
    ∃ b, construct gapTable = .ok b ∧ 0 < gapTable.totalPatches ∧
      b.nfaces = gapTable.maxFaceId + 1 ∧ b.nfaces = 4 ∧ b.map.offsets = [0, 1, 2] ∧
      ¬ ((b.map.offsets.length : Int) = b.nfaces) :=
  ⟨_, rfl, by decide, by decide, by decide, by decide, by decide⟩

/-- C8, amended: for a table with an entry for every patch and face ids that are
non-negative as `int` and dense, every id in `0..maxFaceId` being the face id of at least
one patch, the constructor builds a map whose `offsets` has exactly `numFaces` entries,
`numFaces = maxFaceId + 1` being one more than the largest face id seen. -/
theorem offsets_size_dense (pt : FarPatchTables) (hent : pt.HasEntries) (hr : pt.InRange)
    (hnn : ∀ f ∈ pt.faceIds, 0 ≤ toInt f) (hd : pt.Dense) :
    ∃ b, construct pt = .ok b ∧ b.nfaces = pt.maxFaceId + 1 ∧
      (b.map.offsets.length : Int) = b.nfaces := by
  have h0 : 0 ∈ pt.faceIds := hd 0 (maxFaceId_nonneg pt)
  obtain ⟨b, h⟩ := construct_ok pt hent (totalPatches_pos_of_mem pt _ h0)
    (by have := hr.1; omega) (dense_fit pt hr hd)
  have hn := (construct_faceIds pt b h).2
  refine ⟨b, h, hn, ?_⟩
  have hle := offsets_length_le_nfaces pt b h hr hnn
  have hmax := maxFaceId_nonneg pt
  have hall : ∀ i : Nat, i ≤ pt.maxFaceId.toNat → i ∈ pt.faceIds :=
    fun i hi => hd i (by omega)
  have hat := (offsets_at pt b h hr pt.maxFaceId.toNat hall).2
  obtain ⟨hlt, _⟩ := List.getElem?_eq_some_iff.1 hat
  omega

/-- Witness of the amended C8 on the scenario of the specification. -/
theorem offsets_size_dense_witness :
    scenario.HasEntries ∧ scenario.InRange ∧ (∀ f ∈ scenario.faceIds, 0 ≤ toInt f) ∧
    scenario.Dense ∧
    ∃ b, construct scenario = .ok b ∧ b.nfaces = scenario.maxFaceId + 1 ∧
      (b.map.offsets.length : Int) = b.nfaces :=
  ⟨scenario_hasEntries, scenario_inRange, by decide, scenario_dense,
    offsets_size_dense scenario scenario_hasEntries scenario_inRange (by decide)
      scenario_dense⟩

/-- C9: for a table with at least one patch, an entry for every patch and a largest face id
below `INT_MAX`, so that `++nfaces` does not overflow, the constructor builds a map whose `offsets` starts with 0 and is non-decreasing: `offsets[i] <=
offsets[i+1]` for every `i` with both entries. -/
theorem offsets_start_and_monotone (pt : FarPatchTables) (hent : pt.HasEntries)
    (hpos : 0 < pt.totalPatches) (hr : pt.InRange) (hfit : pt.maxFaceId < 2147483647) :
    ∃ b, construct pt = .ok b ∧ b.map.offsets[0]? = some 0 ∧
      ∀ i s t, b.map.offsets[i]? = some s → b.map.offsets[i + 1]? = some t → s ≤ t := by
  obtain ⟨b, h⟩ := construct_ok pt hent hpos (by have := hr.1; omega) hfit
  refine ⟨b, h, ?_, ?_⟩
  · have hs := construct_serialized pt b h (by have := hr.1; omega)
    have hne := entries_ne_nil pt b h
    have hsorted := entries_sorted b
    rw [hs.2.1]
    cases hm : b.entries with
    | nil => exact absurd hm hne
    | cons e r =>
      rw [hm] at hsorted
      have h0 : countLt (e :: r) e.1 = 0 := by
        apply countLt_eq_zero
        intro x hx
        rcases List.mem_cons.1 hx with rfl | hx
        · exact Nat.le_refl _
        · exact hsorted.head_le x hx
      simp [distinctKeys, h0]
  · intro i s t hs ht
    obtain ⟨d, _, _, _, hnext, _⟩ := offsets_run_pos pt b h hr i s hs
    rw [ht] at hnext
    simp only [Option.getD_some] at hnext
    omega

/-- Witness of C9 on the scenario of the specification. -/
theorem offsets_start_and_monotone_witness :
    scenario.HasEntries ∧ 0 < scenario.totalPatches ∧ scenario.InRange ∧
    scenario.maxFaceId < 2147483647 ∧
    ∃ b, construct scenario = .ok b ∧ b.map.offsets[0]? = some 0 ∧
      ∀ i s t, b.map.offsets[i]? = some s → b.map.offsets[i + 1]? = some t → s ≤ t :=
  ⟨scenario_hasEntries, by decide, scenario_inRange, scenario_fit,
    offsets_start_and_monotone scenario scenario_hasEntries (by decide) scenario_inRange
      scenario_fit⟩

/-- C10: for a table with at least one patch, an entry for every patch and a largest face
id below `INT_MAX`, the constructor builds a map whose `handles` is the stable sort by face
id of the patches in encounter order. The patches in encounter order are those the
insertion loops meet in the tables, patch arrays in order and patches within an array in
order, each with the face id read for it from the face-id table, so that their face ids
are the face ids of the table in order. There is a list `s` of the patches, each a face id
with its handle, that is a permutation of the patches as met, lists the handles in the
order of `handles`, and keeps the patches of each face id in their encounter order; the
`serialIndex` of a handle is the encounter position of its patch; and `s` is ordered by
face id first and `serialIndex` second: within the run of a face the `serialIndex` values
increase strictly, and across runs the face ids increase strictly. -/
theorem handles_stable_sort (pt : FarPatchTables) (hent : pt.HasEntries)
    (hpos : 0 < pt.totalPatches) (hr : pt.InRange) (hfit : pt.maxFaceId < 2147483647) :
    ∃ b, construct pt = .ok b ∧
      b.created = patchesFrom pt.ptexTable pt.patchArrays 0 0 ∧
      (patchesFrom pt.ptexTable pt.patchArrays 0 0).map Prod.fst = pt.faceIds ∧
      ∃ s : List (Nat × OsdPatchHandle),
        s.Perm (patchesFrom pt.ptexTable pt.patchArrays 0 0) ∧
        b.map.handles = s.map Prod.snd ∧
        (patchesFrom pt.ptexTable pt.patchArrays 0 0).map (fun e => e.2.serialIndex) =
          List.range pt.totalPatches ∧
        (∀ F : Nat, s.filter (fun e => decide (e.1 = F)) =
          (patchesFrom pt.ptexTable pt.patchArrays 0 0).filter (fun e => decide (e.1 = F))) ∧
        s.Pairwise (fun x y =>
          x.1 < y.1 ∨ (x.1 = y.1 ∧ x.2.serialIndex < y.2.serialIndex)) := by
  obtain ⟨b, h⟩ := construct_ok pt hent hpos (by have := hr.1; omega) hfit
  have hp := construct_patches pt b h
  refine ⟨b, h, hp, ?_, b.entries, ?_,
    (construct_serialized pt b h (by have := hr.1; omega)).1, ?_, ?_,
    entries_lex pt b h hr⟩
  · rw [← hp]; exact (construct_faceIds pt b h).1
  · rw [← hp]; exact entries_perm pt b h hr
  · rw [← hp]; exact created_serial pt b h hr
  · intro F
    rw [← hp, entries_eq pt b h hr]
    exact MultiMap.ofList_filter _ F

/-- Witness of C10 on the scenario of the specification. -/
theorem handles_stable_sort_witness :
    scenario.HasEntries ∧ 0 < scenario.totalPatches ∧ scenario.InRange ∧
    scenario.maxFaceId < 2147483647 ∧
    ∃ b, construct scenario = .ok b ∧
      b.created = patchesFrom scenario.ptexTable scenario.patchArrays 0 0 ∧
      (patchesFrom scenario.ptexTable scenario.patchArrays 0 0).map Prod.fst =
        scenario.faceIds ∧
      ∃ s : List (Nat × OsdPatchHandle),
        s.Perm (patchesFrom scenario.ptexTable scenario.patchArrays 0 0) ∧
        b.map.handles = s.map Prod.snd ∧
        (patchesFrom scenario.ptexTable scenario.patchArrays 0 0).map
            (fun e => e.2.serialIndex) = List.range scenario.totalPatches ∧
        (∀ F : Nat, s.filter (fun e => decide (e.1 = F)) =
          (patchesFrom scenario.ptexTable scenario.patchArrays 0 0).filter
            (fun e => decide (e.1 = F))) ∧
        s.Pairwise (fun x y =>
          x.1 < y.1 ∨ (x.1 = y.1 ∧ x.2.serialIndex < y.2.serialIndex)) :=
  ⟨scenario_hasEntries, by decide, scenario_inRange, scenario_fit,
    handles_stable_sort scenario scenario_hasEntries (by decide) scenario_inRange
      scenario_fit⟩

/-- C11, as stated, fails when a control-vertex offset leaves `unsigned int`: on the table
with one array of five patches of `2^30` control vertices each, a map is built, the
handle the claim describes for the last patch has the offset `4 * 2^30 = 2^32`, and the
map holds the handle with the offset 0 instead, the product being reduced modulo `2^32`;
the handles of the map are not the described handles, not even as a multiset. -/
theorem handles_offset_wrap_counterexample :
    wrapTable.HasEntries ∧ wrapTable.InRange ∧ wrapTable.maxFaceId < 2147483647 ∧
    ¬ wrapTable.CvInRange ∧
    ∃ b, construct wrapTable = .ok b ∧
      b.map.handles = [⟨0, 0, 0⟩, ⟨0, 1073741824, 1⟩, ⟨0, 2147483648, 2⟩,
        ⟨0, 3221225472, 3⟩, ⟨0, 0, 4⟩] ∧
      (⟨0, 4294967296, 4⟩ : OsdPatchHandle) ∈ wrapTable.specHandles ∧
      (⟨0, 4294967296, 4⟩ : OsdPatchHandle) ∉ b.map.handles ∧
      ¬ b.map.handles.Perm wrapTable.specHandles :=
  ⟨wrapTable_hasEntries, by constructor <;> decide, by decide, wrapTable_not_cvInRange,
    _, rfl, by decide, by decide, by decide, by decide⟩

/-- C11, amended: for a table with at least one patch, an entry for every patch, a largest
face id below `INT_MAX` and control-vertex offsets that fit `unsigned int`, every product
`j * ringSize_a` being below `2^32`, the constructor builds a map whose handles are, as a
multiset, exactly one handle `{a, j * ringSize_a, s}` per patch `j` of patch array `a`,
`s` being the number of patches in the arrays before `a` plus `j`; these are the handles
created in encounter order, and the `serialIndex` values of the map are exactly
`0..N-1`, each occurring once. -/
theorem handles_one_per_patch (pt : FarPatchTables) (hent : pt.HasEntries)
    (hpos : 0 < pt.totalPatches) (hr : pt.InRange) (hfit : pt.maxFaceId < 2147483647)
    (hcv : pt.CvInRange) :
    ∃ b, construct pt = .ok b ∧ b.map.handles.Perm pt.specHandles ∧
      b.created.map Prod.snd = pt.specHandles ∧
      (b.map.handles.map (fun x => x.serialIndex)).Perm (List.range pt.totalPatches) ∧
      ∀ i, i < pt.totalPatches → (b.map.handles.map (fun x => x.serialIndex)).count i = 1 := by
  obtain ⟨b, h⟩ := construct_ok pt hent hpos (by have := hr.1; omega) hfit
  have hs := construct_serialized pt b h (by have := hr.1; omega)
  have hspec := created_specHandles pt b h hent hr hcv
  have hperm : b.map.handles.Perm (b.created.map Prod.snd) := by
    rw [hs.1]
    exact (entries_perm pt b h hr).map _
  have hser : (b.map.handles.map (fun x => x.serialIndex)).Perm
      (List.range pt.totalPatches) := by
    have := hperm.map (fun x => x.serialIndex)
    rw [List.map_map] at this
    have hcs := created_serial pt b h hr
    have he : (fun x : OsdPatchHandle => x.serialIndex) ∘ Prod.snd =
        fun e : Nat × OsdPatchHandle => e.2.serialIndex := rfl
    rw [he, hcs] at this
    exact this
  refine ⟨b, h, by rw [← hspec]; exact hperm, hspec, hser, ?_⟩
  intro i hi
  rw [hser.count_eq]
  exact List.count_eq_one_of_mem (List.nodup_range _) (List.mem_range.2 hi)

/-- Witness of the amended C11 on the scenario of the specification. -/
theorem handles_one_per_patch_witness :
    scenario.HasEntries ∧ 0 < scenario.totalPatches ∧ scenario.InRange ∧
    scenario.maxFaceId < 2147483647 ∧ scenario.CvInRange ∧
    ∃ b, construct scenario = .ok b ∧ b.map.handles.Perm scenario.specHandles ∧
      b.created.map Prod.snd = scenario.specHandles ∧
      (b.map.handles.map (fun x => x.serialIndex)).Perm (List.range scenario.totalPatches) ∧
      ∀ i, i < scenario.totalPatches →
        (b.map.handles.map (fun x => x.serialIndex)).count i = 1 :=
  ⟨scenario_hasEntries, by decide, scenario_inRange, scenario_fit, scenario_cvInRange,
    handles_one_per_patch scenario scenario_hasEntries (by decide) scenario_inRange
      scenario_fit scenario_cvInRange⟩

/-- C12, as stated, fails when the output descriptor argument is a reference to the
input descriptor of the context itself, as in `BindVertexBuffers(d, inQ,
ctx.GetInputDesc(), outQ)`: `_inDesc` is assigned before `outDesc` is read, so that
`GetOutputDesc()` returns `d` afterwards and not the descriptor `outDesc` denoted when the
call was made. -/
theorem bind_aliased_output_counterexample :
    aliasContext.deref .memberIn = aliasContext.GetInputDesc ∧
    aliasContext.deref .memberIn = ⟨0, 3, 3⟩ ∧
    (aliasContext.BindVertexBuffers (.object ⟨1, 2, 3⟩) none .memberIn none none
      none).GetOutputDesc = ⟨1, 2, 3⟩ ∧
    (aliasContext.BindVertexBuffers (.object ⟨1, 2, 3⟩) none .memberIn none none
      none).GetOutputDesc ≠ aliasContext.deref .memberIn :=
  ⟨rfl, rfl, rfl, by decide⟩

/-- C12, amended: from any context state, when the output descriptor argument is not a
reference to the input descriptor member of the context, after `BindVertexBuffers` the
accessors return what was bound: the two descriptors the arguments denoted when the call
was made, and for each of the four buffers the pointer its `BindCpuBuffer()` resolves to, a
null buffer giving the null pointer; binding descriptor objects again replaces the
binding, so that nothing of the previous one survives; binding after an unbind is binding;
and after a following `UnbindVertexBuffers()` the four pointer accessors return null. -/
theorem bind_read_unbind (ctx : OsdCpuEvalLimitContext)
    (inDesc outDesc : DescRef) (hal : outDesc ≠ DescRef.memberIn)
    (inQ outQ outdQu outdQv : Option CpuBuffer)
    (inDesc0 outDesc0 : DescRef) (inQ0 outQ0 outdQu0 outdQv0 : Option CpuBuffer)
    (d e : OsdVertexBufferDescriptor) :
    (ctx.BindVertexBuffers inDesc inQ outDesc outQ outdQu outdQv).GetInputDesc =
      ctx.deref inDesc ∧
    (ctx.BindVertexBuffers inDesc inQ outDesc outQ outdQu outdQv).GetOutputDesc =
      ctx.deref outDesc ∧
    (ctx.BindVertexBuffers inDesc inQ outDesc outQ outdQu outdQv).GetInputVertexData =
      bindOrNull inQ ∧
    (ctx.BindVertexBuffers inDesc inQ outDesc outQ outdQu outdQv).GetOutputVertexData =
      bindOrNull outQ ∧
    (ctx.BindVertexBuffers inDesc inQ outDesc outQ outdQu
      outdQv).GetOutputVertexDataUDerivative = bindOrNull outdQu ∧
    (ctx.BindVertexBuffers inDesc inQ outDesc outQ outdQu
      outdQv).GetOutputVertexDataVDerivative = bindOrNull outdQv ∧
    bindOrNull none = 0 ∧
    (∀ buf : CpuBuffer, bindOrNull (some buf) = buf.BindCpuBuffer) ∧
    ((ctx.BindVertexBuffers inDesc0 inQ0 outDesc0 outQ0 outdQu0 outdQv0).BindVertexBuffers
        (.object d) inQ (.object e) outQ outdQu outdQv =
      ctx.BindVertexBuffers (.object d) inQ (.object e) outQ outdQu outdQv) ∧
    ((ctx.UnbindVertexBuffers).BindVertexBuffers inDesc inQ outDesc outQ outdQu outdQv =
      ctx.BindVertexBuffers inDesc inQ outDesc outQ outdQu outdQv) ∧
    (ctx.BindVertexBuffers inDesc inQ outDesc outQ outdQu
      outdQv).UnbindVertexBuffers.GetInputVertexData = 0 ∧
    (ctx.BindVertexBuffers inDesc inQ outDesc outQ outdQu
      outdQv).UnbindVertexBuffers.GetOutputVertexData = 0 ∧
    (ctx.BindVertexBuffers inDesc inQ outDesc outQ outdQu
      outdQv).UnbindVertexBuffers.GetOutputVertexDataUDerivative = 0 ∧
    (ctx.BindVertexBuffers inDesc inQ outDesc outQ outdQu
      outdQv).UnbindVertexBuffers.GetOutputVertexDataVDerivative = 0 := by
  refine ⟨rfl, ?_, rfl, rfl, rfl, rfl, rfl, fun _ => rfl, rfl, ?_, rfl, rfl, rfl, rfl⟩
  · cases outDesc with
    | object x => rfl
    | memberIn => exact absurd rfl hal
    | memberOut => rfl
  · cases inDesc <;> cases outDesc <;> rfl

/-- Witness of the amended C12: binding a descriptor object as input and the output
descriptor of the context itself as output. -/
theorem bind_read_unbind_witness :
    DescRef.memberOut ≠ DescRef.memberIn ∧
    (aliasContext.BindVertexBuffers (.object ⟨1, 2, 3⟩) (some ⟨7⟩) .memberOut none none
      none).GetInputDesc = ⟨1, 2, 3⟩ ∧
    (aliasContext.BindVertexBuffers (.object ⟨1, 2, 3⟩) (some ⟨7⟩) .memberOut none none
      none).GetOutputDesc = ⟨3, 5, 8⟩ ∧
    (aliasContext.BindVertexBuffers (.object ⟨1, 2, 3⟩) (some ⟨7⟩) .memberOut none none
      none).GetInputVertexData = 7 :=
  ⟨by decide,
    (bind_read_unbind aliasContext (.object ⟨1, 2, 3⟩) .memberOut (by decide) (some ⟨7⟩)
      none none none .memberIn .memberIn none none none none ⟨0, 0, 0⟩ ⟨0, 0, 0⟩).1,
    (bind_read_unbind aliasContext (.object ⟨1, 2, 3⟩) .memberOut (by decide) (some ⟨7⟩)
      none none none .memberIn .memberIn none none none none ⟨0, 0, 0⟩ ⟨0, 0, 0⟩).2.1,
    (bind_read_unbind aliasContext (.object ⟨1, 2, 3⟩) .memberOut (by decide) (some ⟨7⟩)
      none none none .memberIn .memberIn none none none none ⟨0, 0, 0⟩ ⟨0, 0, 0⟩).2.2.1⟩

/-- C13: `UnbindVertexBuffers()` changes only the four bound pointers: in every context
state the two descriptors after the call are those before it, and the topology tables and
the patch map are unchanged. -/
theorem unbind_frame (ctx : OsdCpuEvalLimitContext) :
    ctx.UnbindVertexBuffers.GetInputDesc = ctx.GetInputDesc ∧
    ctx.UnbindVertexBuffers.GetOutputDesc = ctx.GetOutputDesc ∧
    ctx.UnbindVertexBuffers.GetPatchArrayVector = ctx.GetPatchArrayVector ∧
    ctx.UnbindVertexBuffers.GetControlVertices = ctx.GetControlVertices ∧
    ctx.UnbindVertexBuffers.GetPatchBitFields = ctx.GetPatchBitFields ∧
    ctx.UnbindVertexBuffers.GetVertexValenceBuffer = ctx.GetVertexValenceBuffer ∧
    ctx.UnbindVertexBuffers.GetQuadOffsetBuffer = ctx.GetQuadOffsetBuffer ∧
    ctx.UnbindVertexBuffers.GetPatchesMap = ctx.GetPatchesMap ∧
    ctx.UnbindVertexBuffers =
      { ctx with inQ := 0, outQ := 0, outdQu := 0, outdQv := 0 } :=
  ⟨rfl, rfl, rfl, rfl, rfl, rfl, rfl, rfl, rfl⟩

/-- C14: for a table with an entry for every patch and dense face ids, every id in
`0..maxFaceId` being the face id of at least one patch, the constructor builds a map on
which, for every face id `F` of `0..maxFaceId` that is not the last entry of `offsets`,
the lookup returns `true` with the count `offsets[F+1] - offsets[F] + 1`, which is one
more than the number of patches whose face id is `F`. -/
theorem lookup_inner_face_count (pt : FarPatchTables) (hent : pt.HasEntries)
    (hr : pt.InRange) (hd : pt.Dense) :
    ∃ b, construct pt = .ok b ∧ ∀ F : Nat, (F : Int) ≤ pt.maxFaceId →
      F + 1 < b.map.offsets.length →
      ∃ s t, b.map.offsets[F]? = some s ∧ b.map.offsets[F + 1]? = some t ∧
        b.map.GetChildPatchesHandles (F : Int) = .success ((t : Int) - (s : Int) + 1) s ∧
        (t : Int) - (s : Int) + 1 = (pt.faceIds.count F : Int) + 1 := by
  have h0 : 0 ∈ pt.faceIds := hd 0 (maxFaceId_nonneg pt)
  obtain ⟨b, h⟩ := construct_ok pt hent (totalPatches_pos_of_mem pt _ h0)
    (by have := hr.1; omega) (dense_fit pt hr hd)
  refine ⟨b, h, ?_⟩
  intro F hF hlt
  have hN := hr.1
  have hl := handles_length pt b h
  have hb := offsets_length_bounds pt b h hr
  have hall : ∀ i : Nat, i ≤ F → i ∈ pt.faceIds := fun i hi => hd i (by omega)
  have hat := offsets_at pt b h hr F hall
  have hst := offsets_step pt b h hr F F hat.1
  have ht := List.getElem?_eq_getElem hlt
  rw [ht] at hst
  simp only [Option.getD_some] at hst
  obtain ⟨d2, _, _, hcpos2, _, hle2⟩ := offsets_run_pos pt b h hr (F + 1) _ ht
  have hce := countEq_entries pt b h hr F
  refine ⟨_, _, hst.1, ht, ?_, ?_⟩
  · exact lookup_inner b.map F _ _ hst.1 ht (by omega) (by omega) (by omega) (by omega)
  · omega

/-- Witness of C14 on the scenario of the specification. -/
theorem lookup_inner_face_count_witness :
    scenario.HasEntries ∧ scenario.InRange ∧ scenario.Dense ∧
    ∃ b, construct scenario = .ok b ∧ ∀ F : Nat, (F : Int) ≤ scenario.maxFaceId →
      F + 1 < b.map.offsets.length →
      ∃ s t, b.map.offsets[F]? = some s ∧ b.map.offsets[F + 1]? = some t ∧
        b.map.GetChildPatchesHandles (F : Int) = .success ((t : Int) - (s : Int) + 1) s ∧
        (t : Int) - (s : Int) + 1 = (scenario.faceIds.count F : Int) + 1 :=
  ⟨scenario_hasEntries, scenario_inRange, scenario_dense,
    lookup_inner_face_count scenario scenario_hasEntries scenario_inRange scenario_dense⟩

/-- C15, as stated, fails on a table with a face-id entry and no patch: the face-id table
is not empty and every patch has its entry, but the multimap stays empty and the running
face id is initialised from `mmap.begin()->first`, the key of an entry that does not
exist. -/
theorem construction_counterexample :
    noPatchTable.ptexTable ≠ [] ∧ noPatchTable.HasEntries ∧
      construct noPatchTable = .error .emptyMultiMap ∧
      ¬ ∃ b, construct noPatchTable = .ok b :=
  ⟨by decide, noPatchTable_hasEntries, rfl, fun ⟨_, hb⟩ =>
    Except.noConfusion ((rfl : construct noPatchTable = .error .emptyMultiMap).symm.trans hb)⟩

/-- C15, amended: for every table with at least one patch, a number of patches that is an
`int` value, and a face-id table with an entry at index `GetPatchIndex()+j` for every
patch `j` of every array (so that it is not empty): when the largest face id read into
`int faceId` is below `INT_MAX`, the constructor runs to completion: the calls of
`reserve` succeed, `++nfaces` does not overflow, the first key of the multimap exists, the
assertion on the order of the keys holds at every step of the serialisation loop, and
every write into `handles` is in range; when the largest face id is `INT_MAX` or more,
`++nfaces` overflows and no map is built. -/
theorem construction_well_defined (pt : FarPatchTables) (hent : pt.HasEntries)
    (hpos : 0 < pt.totalPatches) (hN : pt.totalPatches < 2147483648) :
    pt.ptexTable ≠ [] ∧
    (pt.maxFaceId < 2147483647 → ∃ b, construct pt = .ok b ∧
      construct pt ≠ .error .handlesReserve ∧
      construct pt ≠ .error .ptexTableEmpty ∧
      construct pt ≠ .error .ptexIndexOutOfRange ∧
      construct pt ≠ .error .nfacesOverflow ∧
      construct pt ≠ .error .emptyMultiMap ∧
      construct pt ≠ .error .orderAssertion ∧
      construct pt ≠ .error .handlesIndexOutOfRange) ∧
    (2147483647 ≤ pt.maxFaceId → construct pt = .error .nfacesOverflow) := by
  refine ⟨totalPatches_pos_ptex pt hent hpos, ?_, construct_overflow pt hent hpos hN⟩
  intro hfit
  obtain ⟨b, h⟩ := construct_total pt hent hpos hN hfit
  refine ⟨b, h, ?_, ?_, ?_, ?_, ?_, ?_, ?_⟩ <;>
    (rw [h]; intro hc; cases hc)

/-- Witness of the amended C15 on the scenario of the specification. -/
theorem construction_well_defined_witness :
    scenario.HasEntries ∧ 0 < scenario.totalPatches ∧ scenario.totalPatches < 2147483648 ∧
    scenario.maxFaceId < 2147483647 ∧
    (scenario.ptexTable ≠ [] ∧ ∃ b, construct scenario = .ok b ∧
      construct scenario ≠ .error .handlesReserve ∧
      construct scenario ≠ .error .ptexTableEmpty ∧
      construct scenario ≠ .error .ptexIndexOutOfRange ∧
      construct scenario ≠ .error .nfacesOverflow ∧
      construct scenario ≠ .error .emptyMultiMap ∧
      construct scenario ≠ .error .orderAssertion ∧
      construct scenario ≠ .error .handlesIndexOutOfRange) :=
  ⟨scenario_hasEntries, by decide, by decide, scenario_fit,
    (construction_well_defined scenario scenario_hasEntries (by decide) (by decide)).1,
    (construction_well_defined scenario scenario_hasEntries (by decide) (by decide)).2.1
      scenario_fit⟩

/-- C17: for a table with at least one patch, an entry for every patch and a largest face
id below `INT_MAX`, so that `++nfaces` does not overflow, the constructor builds a map whose `offsets` is strictly increasing with every entry smaller than
`handles.size()`; and for every `faceid` with `0 <= faceid < offsets.size()` the lookup
reads inside `offsets` and `handles` and returns `true` with the offset of `faceid`, a
count of at least 1 and a range `[offsets[faceid], offsets[faceid] + count)` inside
`handles`, the `+ 1` of the case other than the last included. -/
theorem built_lookup_in_bounds (pt : FarPatchTables) (hent : pt.HasEntries)
    (hpos : 0 < pt.totalPatches) (hr : pt.InRange) (hfit : pt.maxFaceId < 2147483647) :
    ∃ b, construct pt = .ok b ∧ b.map.offsets.Pairwise (· < ·) ∧
      (∀ s ∈ b.map.offsets, s < b.map.handles.length) ∧
      ∀ faceid : Int, 0 ≤ faceid → faceid < (b.map.offsets.length : Int) →
        ∃ (n first : Nat), b.map.offsets[faceid.toNat]? = some first ∧
          b.map.GetChildPatchesHandles faceid = .success (n : Int) first ∧
          1 ≤ n ∧ first + n ≤ b.map.handles.length := by
  obtain ⟨b, h⟩ := construct_ok pt hent hpos (by have := hr.1; omega) hfit
  refine ⟨b, h, offsets_strict pt b h hr, ?_, ?_⟩
  · intro s hs
    obtain ⟨r, hr1, hrs⟩ := List.getElem_of_mem hs
    have hsome : b.map.offsets[r]? = some s := by
      rw [List.getElem?_eq_getElem hr1, hrs]
    obtain ⟨d, _, _, hcpos, _, hle⟩ := offsets_run_pos pt b h hr r s hsome
    omega
  · intro faceid h0 h1
    have hlt : faceid.toNat < b.map.offsets.length := by omega
    have hsome := List.getElem?_eq_getElem hlt
    obtain ⟨n, hlk, hn1, hn2⟩ := lookup_in_bounds pt b h hr _ _ hsome
    have hcast : ((faceid.toNat : Nat) : Int) = faceid := Int.toNat_of_nonneg h0
    rw [hcast] at hlk
    exact ⟨n, _, hsome, hlk, hn1, hn2⟩

/-- Witness of C17 on the scenario of the specification. -/
theorem built_lookup_in_bounds_witness :
    scenario.HasEntries ∧ 0 < scenario.totalPatches ∧ scenario.InRange ∧
    scenario.maxFaceId < 2147483647 ∧
    ∃ b, construct scenario = .ok b ∧ b.map.offsets.Pairwise (· < ·) ∧
      (∀ s ∈ b.map.offsets, s < b.map.handles.length) ∧
      ∀ faceid : Int, 0 ≤ faceid → faceid < (b.map.offsets.length : Int) →
        ∃ (n first : Nat), b.map.offsets[faceid.toNat]? = some first ∧
          b.map.GetChildPatchesHandles faceid = .success (n : Int) first ∧
          1 ≤ n ∧ first + n ≤ b.map.handles.length :=
  ⟨scenario_hasEntries, by decide, scenario_inRange, scenario_fit,
    built_lookup_in_bounds scenario scenario_hasEntries (by decide) scenario_inRange
      scenario_fit⟩

end OpenSubdiv
